import Mathlib

/-!
# Regression-Calculator: embedding of `src/main.cpp`

The numeric core of the program (`RSquared`, `linearRegressionParams`,
`powerRegressionParams`, `exponentialRegressionParams`) is embedded over an
arbitrary linearly ordered field `K` ("exact real arithmetic": no rounding,
no overflow).  Over `ℚ` every definition evaluates; over `ℝ` the two libm
functions `log` and `exp` are available.

A C++ `double` is modelled by `Dbl K = Option K`: `some v` is the number `v`,
and `none` stands for any non-finite IEEE value (an infinity or a NaN), which
is what the program obtains from a division by zero or from the logarithm of a
non-positive number.  An arithmetic operation with a non-finite operand is
modelled as non-finite (the two IEEE exceptions `exp(-inf) = 0` and
`v / ±inf = 0` are not tracked, so statements about non-finite results are
made for the slope and for `r_squared`, where neither exception can occur).
No function of the program throws on numeric input, so none of the embedded
numeric functions has an error channel.

The wrapper (`parseData`, `outputParams`, `main`) throws `std::runtime_error`
and is embedded in `Except String`.  An input stream is the list of the
outcomes of its successive `>>` extractions (`Token`); the files that can be
opened are parameters.  A program argument is read byte by byte (`argBytes`).
-/

namespace Regression

/-- A `double` in exact arithmetic; `none` is a non-finite value (inf or NaN). -/
abbrev Dbl (K : Type) := Option K

/-- The contents of a `std::vector<double>`. -/
abbrev Vec (K : Type) := List (Dbl K)

section Arithmetic

variable {K : Type} [LinearOrderedField K]

/-- The `+` of two doubles. -/
def dadd : Dbl K → Dbl K → Dbl K
  | some u, some v => some (u + v)
  | _, _ => none

/-- The `-` of two doubles. -/
def dsub : Dbl K → Dbl K → Dbl K
  | some u, some v => some (u - v)
  | _, _ => none

/-- The `*` of two doubles. -/
def dmul : Dbl K → Dbl K → Dbl K
  | some u, some v => some (u * v)
  | _, _ => none

/-- The `/` of two doubles: a zero divisor gives a non-finite value. -/
def ddiv : Dbl K → Dbl K → Dbl K
  | some u, some v => if v = 0 then none else some (u / v)
  | _, _ => none

/-- The call `std::pow(a, 2.0)`. -/
def dpow2 : Dbl K → Dbl K
  | some u => some (u ^ 2)
  | none => none

/-- The call `std::accumulate(v.begin(), v.end(), 0.0)`. -/
def accumulate (v : Vec K) : Dbl K :=
  v.foldl dadd (some 0)

/-- A vector of finite doubles. -/
def fin (xs : List K) : Vec K :=
  xs.map some

end Arithmetic

section Program

variable {K : Type} [LinearOrderedField K]

/-- The work vector `delta_mean_squared` of `RSquared` (main.cpp:30-35): it is
constructed with `y_data.size()` zero entries, and one entry per element of
`y_data` is then pushed to its back. -/
def deltaMeanSquared (y_data : Vec K) (y_mean : Dbl K) : Vec K :=
  y_data.foldl (fun v y => v ++ [dpow2 (dsub y y_mean)])
    (List.replicate y_data.length (some 0))

/-- The work vector `delta_estimated_squared` of `RSquared` (main.cpp:38-44),
with `f(x) = params.first + params.second * x`. -/
def deltaEstimatedSquared (params : Dbl K × Dbl K) (x_data : Vec K)
    (y_mean : Dbl K) : Vec K :=
  x_data.foldl
    (fun v x => v ++ [dpow2 (dsub (dadd params.1 (dmul params.2 x)) y_mean)])
    (List.replicate x_data.length (some 0))

/-- The function `RSquared` (main.cpp:20-51).  It reads `x_data` and `y_data`
and writes to neither. -/
def RSquared (params : Dbl K × Dbl K) (x_data y_data : Vec K) : Dbl K :=
  let n : Dbl K := some (y_data.length : K)
  let y_mean := ddiv (accumulate y_data) n
  let delta_mean_squared := deltaMeanSquared y_data y_mean
  let delta_estimated_squared := deltaEstimatedSquared params x_data y_mean
  let dms_mean := ddiv (accumulate delta_mean_squared) n
  let des_mean := ddiv (accumulate delta_estimated_squared) n
  ddiv des_mean dms_mean

/-- What a fit leaves behind: the returned pair, the contents of the caller's
two buffers `x` and `y` after the call (they are passed by non-const
reference), and the value stored in the out-parameter `r_squared`. -/
structure Fit (K : Type) where
  /-- The returned `std::pair`: `first` is the intercept, `second` the slope. -/
  params : Dbl K × Dbl K
  /-- The caller's `x` after the call. -/
  x : Vec K
  /-- The caller's `y` after the call. -/
  y : Vec K
  /-- The out-parameter `r_squared` after the call. -/
  r_squared : Dbl K

/-- The loop of `linearRegressionParams` (main.cpp:69-72): for `i` from `0`
to `x.size() - 1` it adds `x[i] * x[i]` to `sum_x2` and `x[i] * y[i]` to
`sum_xy`.  The result is `(sum_x2, sum_xy)`.  An index past the end of a
vector (possible only when `y` is shorter than `x`) reads no defined value
and is modelled as non-finite. -/
def sumLoop (x y : Vec K) : Dbl K × Dbl K :=
  (List.range x.length).foldl
    (fun s i =>
      (dadd s.1 (dmul (x.getD i none) (x.getD i none)),
       dadd s.2 (dmul (x.getD i none) (y.getD i none))))
    (some 0, some 0)

/-- The function `linearRegressionParams` (main.cpp:58-86).  It never writes
to `x` or `y`. -/
def linearRegressionParams (x y : Vec K) : Fit K :=
  let n : Dbl K := some (x.length : K)
  let sum_x := accumulate x
  let sum_y := accumulate y
  let sum_x2 := (sumLoop x y).1
  let sum_xy := (sumLoop x y).2
  let numerator := dsub (dmul n sum_xy) (dmul sum_x sum_y)
  let denominator := dsub (dmul n sum_x2) (dmul sum_x sum_x)
  let slope := ddiv numerator denominator
  let intercept := ddiv (dsub sum_y (dmul slope sum_x)) n
  let params := (intercept, slope)
  { params := params, x := x, y := y, r_squared := RSquared params x y }

/-- The value of the local `denominator` of `linearRegressionParams`
(main.cpp:76), by which the slope is obtained. -/
def denominator (x y : Vec K) : Dbl K :=
  dsub (dmul (some (x.length : K)) (sumLoop x y).1) (dmul (accumulate x) (accumulate x))

/-- The value of the local `dms_mean` of `RSquared` (main.cpp:47), by which
the result is obtained. -/
def dms_mean (y_data : Vec K) : Dbl K :=
  ddiv
    (accumulate (deltaMeanSquared y_data
      (ddiv (accumulate y_data) (some (y_data.length : K)))))
    (some (y_data.length : K))

/-- The function `powerRegressionParams` (main.cpp:93-113), for given libm
functions `log` and `exp`.  The two `std::for_each` calls overwrite every
element of `x` and of `y` with its logarithm; the linear fit and its
`r_squared` are then computed on these buffers. -/
def powerRegressionParams (log exp : Dbl K → Dbl K) (x y : Vec K) : Fit K :=
  let x1 := x.map log
  let y1 := y.map log
  let r := linearRegressionParams x1 y1
  { params := (exp r.params.1, r.params.2), x := r.x, y := r.y,
    r_squared := r.r_squared }

/-- The function `exponentialRegressionParams` (main.cpp:120-137), for given
libm functions `log` and `exp`.  The `std::for_each` call overwrites every
element of `y` with its logarithm. -/
def exponentialRegressionParams (log exp : Dbl K → Dbl K) (x y : Vec K) :
    Fit K :=
  let y1 := y.map log
  let r := linearRegressionParams x y1
  { params := (exp r.params.1, exp r.params.2), x := r.x, y := r.y,
    r_squared := r.r_squared }

end Program

section Libm

/-- The libm `log` on exact reals: finite for a positive argument only
(`log(0)` is `-inf`, the logarithm of a negative number is NaN). -/
noncomputable def realLog : Dbl ℝ → Dbl ℝ
  | some v => if 0 < v then some (Real.log v) else none
  | none => none

/-- The libm `exp` on exact reals. -/
noncomputable def realExp : Dbl ℝ → Dbl ℝ
  | some v => some (Real.exp v)
  | none => none

end Libm

section Wrapper

variable {K : Type} [LinearOrderedField K]

/-- The outcome of one formatted extraction `infile >> x` of a `double`:
either the number read, or a failure on text that is not a number.  The end
of the token list is the end of the file, where an extraction fails as well. -/
inductive Token (K : Type) where
  /-- The extraction succeeds with this value. -/
  | number (v : K) : Token K
  /-- The extraction fails: the next characters are not a number. -/
  | malformed : Token K

/-- The loop `while (infile >> x >> y)` of `parseData` (main.cpp:156-160)
on the rest of the stream: both extractions must succeed for the pair to be
pushed; the first failed extraction, or the end of the file, ends the loop. -/
def readLoop : List (Token K) → Vec K × Vec K → Vec K × Vec K
  | Token.number x :: Token.number y :: rest, data =>
    readLoop rest (data.1 ++ [some x], data.2 ++ [some y])
  | _, data => data

/-- The function `parseData` (main.cpp:144-161).  `fs` gives the content of
each file that can be opened.  The result is the content of `x_data` and
`y_data` after the call, or the `std::runtime_error` thrown. -/
def parseData (fs : String → Option (List (Token K))) (filepath : String)
    (x_data y_data : Vec K) : Except String (Vec K × Vec K) :=
  match fs filepath with
  | none => Except.error ("Failed to open file: " ++ filepath)
  | some tokens => Except.ok (readLoop tokens (x_data, y_data))

end Wrapper

section Spec

variable {K : Type} [LinearOrderedField K]

/-- The sum `Sxx` of the squares `x_i^2`. -/
def sumXX (xs : List K) : K :=
  (xs.map (fun v => v * v)).sum

/-- The sum `Sxy` of the products `x_i * y_i`. -/
def sumXY (xs ys : List K) : K :=
  (List.zipWith (fun u v => u * v) xs ys).sum

/-- The denominator `n * Sxx - Sx^2` of the closed form. -/
def specDenominator (xs : List K) : K :=
  (xs.length : K) * sumXX xs - xs.sum * xs.sum

/-- The slope of the closed form, `(n * Sxy - Sx * Sy) / (n * Sxx - Sx^2)`. -/
def specSlope (xs ys : List K) : K :=
  ((xs.length : K) * sumXY xs ys - xs.sum * ys.sum) / specDenominator xs

/-- The intercept of the closed form, `(Sy - slope * Sx) / n`. -/
def specIntercept (xs ys : List K) : K :=
  (ys.sum - specSlope xs ys * xs.sum) / (xs.length : K)

/-- The sum of squared residuals `sum_i (y_i - a - b * x_i)^2` of the line
with intercept `a` and slope `b`. -/
def sumSqResiduals (a b : K) (xs ys : List K) : K :=
  (List.zipWith (fun u v => (v - a - b * u) ^ 2) xs ys).sum

/-- The sample mean of `ys`. -/
def mean (ys : List K) : K :=
  ys.sum / (ys.length : K)

/-- The explained sum `sum_i (a + b * x_i - ybar)^2`. -/
def sumSqEstimated (a b : K) (xs ys : List K) : K :=
  (xs.map (fun u => (a + b * u - mean ys) ^ 2)).sum

/-- The total sum `sum_i (y_i - ybar)^2`. -/
def sumSqTotal (ys : List K) : K :=
  (ys.map (fun v => (v - mean ys) ^ 2)).sum

/-- A record of the input file is the list of the fields of one line; it is
well-formed when it consists of two numbers. -/
def recordPair : List (Token K) → Option (K × K)
  | [Token.number a, Token.number b] => some (a, b)
  | _ => none

/-- What the reader yields if every well-formed record is appended, in input
order, and every other record is ignored. -/
def specParse (records : List (List (Token K))) : Vec K × Vec K :=
  (fin ((records.filterMap recordPair).map Prod.fst),
   fin ((records.filterMap recordPair).map Prod.snd))

/-- The token stream of a sequence of pairs of numbers. -/
def pairTokens : List (K × K) → List (Token K)
  | [] => []
  | p :: ps => Token.number p.1 :: Token.number p.2 :: pairTokens ps

end Spec

section Lemmas

variable {K : Type} [LinearOrderedField K]

@[simp]
theorem dadd_some (u v : K) : dadd (some u) (some v) = some (u + v) := rfl

@[simp]
theorem dsub_some (u v : K) : dsub (some u) (some v) = some (u - v) := rfl

@[simp]
theorem dmul_some (u v : K) : dmul (some u) (some v) = some (u * v) := rfl

@[simp]
theorem dpow2_some (u : K) : dpow2 (some u) = some (u ^ 2) := rfl

theorem ddiv_some (u v : K) :
    ddiv (some u) (some v) = if v = 0 then none else some (u / v) := rfl

theorem ddiv_some_of_ne (u : K) {v : K} (h : v ≠ 0) :
    ddiv (some u) (some v) = some (u / v) := by
  simp [ddiv_some, h]

theorem ddiv_some_zero (u : K) : ddiv (some u) (some (0 : K)) = none := by
  simp [ddiv_some]

@[simp]
theorem ddiv_none_left (b : Dbl K) : ddiv none b = none := by
  cases b <;> rfl

@[simp]
theorem ddiv_none_right (a : Dbl K) : ddiv a none = none := by
  cases a <;> rfl

theorem foldl_dadd_some (xs : List K) (a : K) :
    (xs.map some).foldl dadd (some a) = some (a + xs.sum) := by
  induction xs generalizing a with
  | nil => simp
  | cons b l ih => simp [ih, add_assoc]

theorem accumulate_fin (xs : List K) : accumulate (fin xs) = some xs.sum := by
  simpa [accumulate, fin] using foldl_dadd_some xs 0

theorem foldl_dadd_zeros (k : ℕ) (a : Dbl K) :
    (List.replicate k (some (0 : K))).foldl dadd a = a := by
  induction k generalizing a with
  | zero => rfl
  | succ k ih =>
    rw [List.replicate_succ, List.foldl_cons, ih]
    cases a <;> simp [dadd]

theorem accumulate_zeros_append (k : ℕ) (zs : List K) :
    accumulate (List.replicate k (some (0 : K)) ++ fin zs) = some zs.sum := by
  unfold accumulate
  rw [List.foldl_append, foldl_dadd_zeros]
  exact accumulate_fin zs

theorem foldl_push_back {α β : Type} (g : α → β) (l : List α) (init : List β) :
    l.foldl (fun v a => v ++ [g a]) init = init ++ l.map g := by
  induction l generalizing init with
  | nil => simp
  | cons a l ih => simp [ih]

theorem deltaMeanSquared_fin (ys : List K) (m : K) :
    deltaMeanSquared (fin ys) (some m)
      = List.replicate ys.length (some 0) ++ fin (ys.map (fun v => (v - m) ^ 2)) := by
  unfold deltaMeanSquared
  rw [foldl_push_back]
  simp [fin, Function.comp_def]

theorem deltaEstimatedSquared_fin (a b : K) (xs : List K) (m : K) :
    deltaEstimatedSquared (some a, some b) (fin xs) (some m)
      = List.replicate xs.length (some 0)
        ++ fin (xs.map (fun u => (a + b * u - m) ^ 2)) := by
  unfold deltaEstimatedSquared
  rw [foldl_push_back]
  simp [fin, Function.comp_def]

theorem sumLoop_prefix (xs ys : List K) (h : xs.length = ys.length) (k : ℕ)
    (hk : k ≤ xs.length) :
    (List.range k).foldl
      (fun (s : Dbl K × Dbl K) i =>
        (dadd s.1 (dmul ((fin xs).getD i none) ((fin xs).getD i none)),
         dadd s.2 (dmul ((fin xs).getD i none) ((fin ys).getD i none))))
      (some 0, some 0)
    = (some (sumXX (xs.take k)), some (sumXY (xs.take k) (ys.take k))) := by
  induction k with
  | zero => simp [sumXX, sumXY]
  | succ k ih =>
    have hx : k < xs.length := hk
    have hy : k < ys.length := h ▸ hk
    rw [List.range_succ, List.foldl_append, ih (Nat.le_of_lt hx)]
    have ex : (fin xs).getD k none = some xs[k] := by
      simp [fin, List.getD, hx]
    have ey : (fin ys).getD k none = some ys[k] := by
      simp [fin, List.getD, hy]
    have tx : xs.take (k + 1) = xs.take k ++ [xs[k]] := by
      rw [List.take_succ]; simp [hx]
    have ty : ys.take (k + 1) = ys.take k ++ [ys[k]] := by
      rw [List.take_succ]; simp [hy]
    have hl : (xs.take k).length = (ys.take k).length := by
      simp [h]
    rw [tx, ty]
    simp only [List.foldl_cons, List.foldl_nil, ex, ey, dmul_some, dadd_some, sumXX,
      sumXY, List.map_append, List.sum_append, List.zipWith_append _ _ _ _ _ hl,
      List.map_cons, List.map_nil, List.sum_cons, List.sum_nil, add_zero,
      List.zipWith_cons_cons, List.zipWith_nil_left]

theorem sumLoop_fin (xs ys : List K) (h : xs.length = ys.length) :
    sumLoop (fin xs) (fin ys) = (some (sumXX xs), some (sumXY xs ys)) := by
  have := sumLoop_prefix xs ys h xs.length le_rfl
  have hl : (fin xs).length = xs.length := by simp [fin]
  unfold sumLoop
  rw [hl, this, List.take_length, h, List.take_length]

theorem natCast_length_ne_zero {xs : List K} (h : xs ≠ []) : (xs.length : K) ≠ 0 := by
  have : xs.length ≠ 0 := fun e => h (List.length_eq_zero.mp e)
  exact_mod_cast this

/-- The pair computed by `linearRegressionParams` on finite data of equal
lengths, with the four sums in closed form. -/
theorem linearRegressionParams_params_fin (xs ys : List K)
    (h : xs.length = ys.length) :
    (linearRegressionParams (fin xs) (fin ys)).params
      = (ddiv (dsub (some ys.sum)
            (dmul (ddiv (some ((xs.length : K) * sumXY xs ys - xs.sum * ys.sum))
                    (some ((xs.length : K) * sumXX xs - xs.sum * xs.sum)))
              (some xs.sum)))
          (some (xs.length : K)),
         ddiv (some ((xs.length : K) * sumXY xs ys - xs.sum * ys.sum))
           (some ((xs.length : K) * sumXX xs - xs.sum * xs.sum))) := by
  have hl : (fin xs).length = xs.length := by simp [fin]
  simp only [linearRegressionParams, sumLoop_fin xs ys h, accumulate_fin, hl, dmul_some,
    dsub_some]

theorem linearRegressionParams_params_of_ne (xs ys : List K)
    (h : xs.length = ys.length) (hne : xs ≠ []) (hd : specDenominator xs ≠ 0) :
    (linearRegressionParams (fin xs) (fin ys)).params
      = (some (specIntercept xs ys), some (specSlope xs ys)) := by
  have hd2 : (xs.length : K) * sumXX xs - xs.sum * xs.sum ≠ 0 := hd
  rw [linearRegressionParams_params_fin xs ys h, ddiv_some_of_ne _ hd2, dmul_some,
    dsub_some, ddiv_some_of_ne _ (natCast_length_ne_zero hne)]
  rfl

theorem linearRegressionParams_r_squared (x y : Vec K) :
    (linearRegressionParams x y).r_squared
      = RSquared (linearRegressionParams x y).params x y := rfl

/-- The value of `RSquared` on finite data: the two work vectors are summed
with their leading zeros, and each sum is divided by `y_data.size()`. -/
theorem RSquared_fin (a b : K) (xs ys : List K) (hne : ys ≠ []) :
    RSquared (some a, some b) (fin xs) (fin ys)
      = ddiv (some (sumSqEstimated a b xs ys / (ys.length : K)))
          (some (sumSqTotal ys / (ys.length : K))) := by
  have hn := natCast_length_ne_zero (K := K) hne
  have hl : (fin ys).length = ys.length := by simp [fin]
  have e1 := deltaMeanSquared_fin ys (ys.sum / (ys.length : K))
  have e2 := deltaEstimatedSquared_fin a b xs (ys.sum / (ys.length : K))
  simp only [RSquared, accumulate_fin, hl, ddiv_some_of_ne _ hn, e1, e2,
    accumulate_zeros_append]
  rfl

/-! ### Algebra of the four sums -/

theorem sumSqResiduals_expand (a b : K) (xs ys : List K) (h : xs.length = ys.length) :
    sumSqResiduals a b xs ys
      = sumXX ys - 2 * a * ys.sum - 2 * b * sumXY xs ys + (xs.length : K) * a ^ 2
        + 2 * a * b * xs.sum + b ^ 2 * sumXX xs := by
  induction xs generalizing ys with
  | nil =>
    cases ys with
    | nil => simp [sumSqResiduals, sumXX, sumXY]
    | cons v l => simp at h
  | cons u xs ih =>
    cases ys with
    | nil => simp at h
    | cons v ys =>
      have h1 : xs.length = ys.length := by simpa using h
      have e := ih ys h1
      simp only [sumSqResiduals, sumXX, sumXY, List.zipWith_cons_cons, List.sum_cons,
        List.map_cons, List.length_cons, Nat.cast_add, Nat.cast_one] at e ⊢
      rw [e]
      ring

theorem sum_sq_affine_expand (c d : K) (xs : List K) :
    (xs.map (fun u => (c + d * u) ^ 2)).sum
      = (xs.length : K) * c ^ 2 + 2 * c * d * xs.sum + d ^ 2 * sumXX xs := by
  induction xs with
  | nil => simp [sumXX]
  | cons u xs ih =>
    simp only [sumXX, List.sum_cons, List.map_cons, List.length_cons, Nat.cast_add,
      Nat.cast_one] at ih ⊢
    rw [ih]
    ring

theorem sumSqEstimated_expand (a b : K) (xs ys : List K) :
    sumSqEstimated a b xs ys
      = (xs.length : K) * (a - mean ys) ^ 2 + 2 * (a - mean ys) * b * xs.sum
        + b ^ 2 * sumXX xs := by
  rw [← sum_sq_affine_expand]
  unfold sumSqEstimated
  congr 1
  refine List.map_congr_left fun u _ => ?_
  ring

theorem sumSqTotal_expand (ys : List K) :
    sumSqTotal ys
      = sumXX ys - 2 * mean ys * ys.sum + (ys.length : K) * mean ys ^ 2 := by
  have e := sum_sq_affine_expand (-mean ys) 1 ys
  have e2 : sumSqTotal ys = (ys.map (fun u => (-mean ys + 1 * u) ^ 2)).sum := by
    unfold sumSqTotal
    congr 1
    refine List.map_congr_left fun u _ => ?_
    ring
  rw [e2, e]
  ring

theorem sum_map_sq_nonneg {α : Type} (g : α → K) (l : List α) :
    0 ≤ (l.map (fun u => g u ^ 2)).sum := by
  apply List.sum_nonneg
  intro t ht
  obtain ⟨u, _, rfl⟩ := List.mem_map.mp ht
  positivity

theorem sum_map_sq_eq_zero {α : Type} (g : α → K) (l : List α)
    (h : (l.map (fun u => g u ^ 2)).sum = 0) : ∀ u ∈ l, g u = 0 := by
  induction l with
  | nil => simp
  | cons v l ih =>
    simp only [List.map_cons, List.sum_cons] at h
    have h1 : 0 ≤ g v ^ 2 := by positivity
    have h2 := sum_map_sq_nonneg g l
    have h3 : g v ^ 2 = 0 := by linarith
    have h4 : (l.map (fun u => g u ^ 2)).sum = 0 := by linarith
    intro u hu
    rcases List.mem_cons.mp hu with rfl | hu
    · exact pow_eq_zero_iff (two_ne_zero) |>.mp h3
    · exact ih h4 u hu

/-- `n * Sxx - Sx^2` is `n` times the sum of the squared deviations of `x` from
its mean. -/
theorem specDenominator_eq (xs : List K) (hne : xs ≠ []) :
    specDenominator xs = (xs.length : K) * sumSqTotal xs := by
  have hn := natCast_length_ne_zero (K := K) hne
  rw [sumSqTotal_expand]
  unfold specDenominator mean
  field_simp
  ring

theorem specDenominator_nonneg (xs : List K) : 0 ≤ specDenominator xs := by
  by_cases hne : xs = []
  · subst hne; simp [specDenominator, sumXX]
  · rw [specDenominator_eq xs hne]
    exact mul_nonneg (Nat.cast_nonneg _) (sum_map_sq_nonneg _ _)

/-- A sequence whose values are not all equal has non-zero total sum of
squares about its mean. -/
theorem sumSqTotal_ne_zero (xs : List K) (hx : ∃ u ∈ xs, ∃ v ∈ xs, u ≠ v) :
    sumSqTotal xs ≠ 0 := by
  intro h0
  obtain ⟨u, hu, v, hv, huv⟩ := hx
  have hz := sum_map_sq_eq_zero (fun t => t - mean xs) xs h0
  have e1 := hz u hu
  have e2 := hz v hv
  simp only at e1 e2
  exact huv (by linarith)

theorem specDenominator_ne_zero (xs : List K) (hx : ∃ u ∈ xs, ∃ v ∈ xs, u ≠ v) :
    specDenominator xs ≠ 0 := by
  have hne : xs ≠ [] := by
    obtain ⟨u, hu, _⟩ := hx
    exact List.ne_nil_of_mem hu
  rw [specDenominator_eq xs hne]
  exact mul_ne_zero (natCast_length_ne_zero hne) (sumSqTotal_ne_zero xs hx)

/-- First normal equation: `n * intercept + slope * Sx = Sy`. -/
theorem normal_eq_one (xs ys : List K) (hne : xs ≠ []) :
    (xs.length : K) * specIntercept xs ys + specSlope xs ys * xs.sum = ys.sum := by
  have hn := natCast_length_ne_zero (K := K) hne
  unfold specIntercept
  field_simp

/-- Second normal equation: `intercept * Sx + slope * Sxx = Sxy`. -/
theorem normal_eq_two (xs ys : List K) (hne : xs ≠ []) (hd : specDenominator xs ≠ 0) :
    specIntercept xs ys * xs.sum + specSlope xs ys * sumXX xs = sumXY xs ys := by
  have hn := natCast_length_ne_zero (K := K) hne
  have hs : specSlope xs ys * specDenominator xs
      = (xs.length : K) * sumXY xs ys - xs.sum * ys.sum := by
    unfold specSlope
    field_simp
  have h1 := normal_eq_one xs ys hne
  have hd2 : specDenominator xs = (xs.length : K) * sumXX xs - xs.sum * xs.sum := rfl
  rw [hd2] at hs
  have key : (xs.length : K)
      * (specIntercept xs ys * xs.sum + specSlope xs ys * sumXX xs - sumXY xs ys) = 0 := by
    linear_combination xs.sum * h1 + hs
  rcases mul_eq_zero.mp key with h0 | h0
  · exact absurd h0 hn
  · linarith

/-- The residuals of any line exceed those of the closed-form line by a sum
of squares. -/
theorem sumSqResiduals_sub (a b : K) (xs ys : List K) (h : xs.length = ys.length)
    (hne : xs ≠ []) (hd : specDenominator xs ≠ 0) :
    sumSqResiduals a b xs ys
      = sumSqResiduals (specIntercept xs ys) (specSlope xs ys) xs ys
        + (xs.map (fun u => ((a - specIntercept xs ys)
            + (b - specSlope xs ys) * u) ^ 2)).sum := by
  have n1 := normal_eq_one xs ys hne
  have n2 := normal_eq_two xs ys hne hd
  rw [sumSqResiduals_expand a b xs ys h, sumSqResiduals_expand _ _ xs ys h,
    sum_sq_affine_expand]
  linear_combination (2 * (a - specIntercept xs ys)) * n1
    + (2 * (b - specSlope xs ys)) * n2

/-- Orthogonal decomposition for the closed-form line: total = explained +
residual. -/
theorem sumSqTotal_decomp (xs ys : List K) (h : xs.length = ys.length)
    (hne : xs ≠ []) (hd : specDenominator xs ≠ 0) :
    sumSqTotal ys
      = sumSqEstimated (specIntercept xs ys) (specSlope xs ys) xs ys
        + sumSqResiduals (specIntercept xs ys) (specSlope xs ys) xs ys := by
  have n1 := normal_eq_one xs ys hne
  have n2 := normal_eq_two xs ys hne hd
  rw [sumSqTotal_expand, sumSqEstimated_expand, sumSqResiduals_expand _ _ xs ys h, ← h]
  linear_combination (2 * (mean ys - specIntercept xs ys)) * n1
    + (-2 * specSlope xs ys) * n2

theorem sum_map_affine (a b : K) (xs : List K) :
    (xs.map (fun u => a + b * u)).sum = (xs.length : K) * a + b * xs.sum := by
  induction xs with
  | nil => simp
  | cons u xs ih =>
    simp only [List.sum_cons, List.map_cons, List.length_cons, Nat.cast_add,
      Nat.cast_one, ih]
    ring

theorem sumXY_map_affine (a b : K) (xs : List K) :
    sumXY xs (xs.map (fun u => a + b * u)) = a * xs.sum + b * sumXX xs := by
  induction xs with
  | nil => simp [sumXY, sumXX]
  | cons u xs ih =>
    simp only [sumXY, sumXX, List.zipWith_cons_cons, List.sum_cons, List.map_cons] at ih ⊢
    rw [ih]
    ring

/-- On noise-free data `y_i = a + b * x_i` the closed form is `(a, b)`. -/
theorem spec_of_affine (a b : K) (xs : List K) (hne : xs ≠ [])
    (hd : specDenominator xs ≠ 0) :
    specIntercept xs (xs.map (fun u => a + b * u)) = a
      ∧ specSlope xs (xs.map (fun u => a + b * u)) = b := by
  have hn := natCast_length_ne_zero (K := K) hne
  have hs : specSlope xs (xs.map (fun u => a + b * u)) = b := by
    unfold specSlope
    rw [sumXY_map_affine, sum_map_affine, div_eq_iff hd]
    unfold specDenominator
    ring
  refine ⟨?_, hs⟩
  unfold specIntercept
  rw [hs, sum_map_affine]
  field_simp

theorem linear_params_of_affine (a b : K) (xs : List K)
    (hx : ∃ u ∈ xs, ∃ v ∈ xs, u ≠ v) :
    (linearRegressionParams (fin xs) (fin (xs.map (fun u => a + b * u)))).params
      = (some a, some b) := by
  have hne : xs ≠ [] := by
    obtain ⟨u, hu, _⟩ := hx
    exact List.ne_nil_of_mem hu
  have hd := specDenominator_ne_zero xs hx
  rw [linearRegressionParams_params_of_ne xs _ (by simp) hne hd,
    (spec_of_affine a b xs hne hd).1, (spec_of_affine a b xs hne hd).2]

/-- When `y` has zero variance the quotient of `RSquared` has a zero divisor. -/
theorem RSquared_of_sumSqTotal_eq_zero (a b : K) (xs ys : List K) (hne : ys ≠ [])
    (h0 : sumSqTotal ys = 0) :
    RSquared (some a, some b) (fin xs) (fin ys) = none := by
  rw [RSquared_fin a b xs ys hne, h0, zero_div]
  exact ddiv_some_zero _

theorem RSquared_of_sumSqTotal_ne_zero (a b : K) (xs ys : List K) (hne : ys ≠ [])
    (h0 : sumSqTotal ys ≠ 0) :
    RSquared (some a, some b) (fin xs) (fin ys)
      = some (sumSqEstimated a b xs ys / sumSqTotal ys) := by
  have hn := natCast_length_ne_zero (K := K) hne
  rw [RSquared_fin a b xs ys hne, ddiv_some_of_ne _ (div_ne_zero h0 hn)]
  congr 1
  field_simp

theorem r_squared_of_affine (a b : K) (hb : b ≠ 0) (xs : List K)
    (hx : ∃ u ∈ xs, ∃ v ∈ xs, u ≠ v) :
    (linearRegressionParams (fin xs) (fin (xs.map (fun u => a + b * u)))).r_squared
      = some 1 := by
  have hy : ∃ u ∈ xs.map (fun u => a + b * u), ∃ v ∈ xs.map (fun u => a + b * u),
      u ≠ v := by
    obtain ⟨u, hu, v, hv, huv⟩ := hx
    refine ⟨a + b * u, List.mem_map_of_mem _ hu, a + b * v, List.mem_map_of_mem _ hv, ?_⟩
    intro e
    exact huv (mul_left_cancel₀ hb (add_left_cancel e))
  have ht := sumSqTotal_ne_zero _ hy
  have hne2 : xs.map (fun u => a + b * u) ≠ [] := by
    obtain ⟨u, hu, _⟩ := hy
    exact List.ne_nil_of_mem hu
  rw [linearRegressionParams_r_squared, linear_params_of_affine a b xs hx,
    RSquared_of_sumSqTotal_ne_zero _ _ _ _ hne2 ht]
  have e : sumSqEstimated a b xs (xs.map (fun u => a + b * u))
      = sumSqTotal (xs.map (fun u => a + b * u)) := by
    simp [sumSqEstimated, sumSqTotal, List.map_map, Function.comp_def]
  rw [e, div_self ht]

end Lemmas

section RealLemmas

theorem map_realLog_fin (xs : List ℝ) (hpos : ∀ u ∈ xs, 0 < u) :
    (fin xs).map realLog = fin (xs.map Real.log) := by
  induction xs with
  | nil => rfl
  | cons u xs ih =>
    have hu : 0 < u := hpos u (List.mem_cons_self _ _)
    have ih2 := ih fun v hv => hpos v (List.mem_cons_of_mem _ hv)
    simp only [fin, List.map_cons, List.map_map] at ih2 ⊢
    rw [ih2]
    simp [realLog, hu]

theorem map_log_not_all_equal (xs : List ℝ) (hpos : ∀ u ∈ xs, 0 < u)
    (hx : ∃ u ∈ xs, ∃ v ∈ xs, u ≠ v) :
    ∃ u ∈ xs.map Real.log, ∃ v ∈ xs.map Real.log, u ≠ v := by
  obtain ⟨u, hu, v, hv, huv⟩ := hx
  refine ⟨Real.log u, List.mem_map_of_mem _ hu, Real.log v, List.mem_map_of_mem _ hv, ?_⟩
  intro e
  exact huv (Real.log_injOn_pos (hpos u hu) (hpos v hv) e)

/-- The logarithms of power-law data `y_i = a * x_i^b` are an affine function
of the logarithms of `x`. -/
theorem map_log_power (a b : ℝ) (ha : 0 < a) (xs : List ℝ) (hpos : ∀ u ∈ xs, 0 < u) :
    (xs.map (fun u => a * u ^ b)).map Real.log
      = (xs.map Real.log).map (fun t => Real.log a + b * t) := by
  rw [List.map_map, List.map_map]
  refine List.map_congr_left fun u hu => ?_
  have hu0 := hpos u hu
  simp only [Function.comp]
  rw [Real.log_mul (ne_of_gt ha) (ne_of_gt (Real.rpow_pos_of_pos hu0 b)), Real.log_rpow hu0]

/-- The logarithms of exponential data `y_i = a * e^(b * x_i)` are an affine
function of `x`. -/
theorem map_log_exponential (a b : ℝ) (ha : 0 < a) (xs : List ℝ) :
    (xs.map (fun u => a * Real.exp (b * u))).map Real.log
      = xs.map (fun t => Real.log a + b * t) := by
  rw [List.map_map]
  refine List.map_congr_left fun u _ => ?_
  simp only [Function.comp]
  rw [Real.log_mul (ne_of_gt ha) (ne_of_gt (Real.exp_pos _)), Real.log_exp]

theorem power_fit_of_model (a b : ℝ) (ha : 0 < a) (xs : List ℝ)
    (hpos : ∀ u ∈ xs, 0 < u) :
    powerRegressionParams realLog realExp (fin xs) (fin (xs.map (fun u => a * u ^ b)))
      = { params :=
            (realExp (linearRegressionParams (fin (xs.map Real.log))
              (fin ((xs.map Real.log).map (fun t => Real.log a + b * t)))).params.1,
             (linearRegressionParams (fin (xs.map Real.log))
              (fin ((xs.map Real.log).map (fun t => Real.log a + b * t)))).params.2)
          x := fin (xs.map Real.log)
          y := fin ((xs.map Real.log).map (fun t => Real.log a + b * t))
          r_squared := (linearRegressionParams (fin (xs.map Real.log))
              (fin ((xs.map Real.log).map (fun t => Real.log a + b * t)))).r_squared } := by
  have hy : ∀ v ∈ xs.map (fun u => a * u ^ b), 0 < v := by
    intro v hv
    obtain ⟨u, hu, rfl⟩ := List.mem_map.mp hv
    exact mul_pos ha (Real.rpow_pos_of_pos (hpos u hu) b)
  unfold powerRegressionParams
  simp only [map_realLog_fin xs hpos, map_realLog_fin _ hy, map_log_power a b ha xs hpos]
  rfl

theorem exponential_fit_of_model (a b : ℝ) (ha : 0 < a) (xs : List ℝ) :
    exponentialRegressionParams realLog realExp (fin xs)
        (fin (xs.map (fun u => a * Real.exp (b * u))))
      = { params :=
            (realExp (linearRegressionParams (fin xs)
              (fin (xs.map (fun t => Real.log a + b * t)))).params.1,
             realExp (linearRegressionParams (fin xs)
              (fin (xs.map (fun t => Real.log a + b * t)))).params.2)
          x := fin xs
          y := fin (xs.map (fun t => Real.log a + b * t))
          r_squared := (linearRegressionParams (fin xs)
              (fin (xs.map (fun t => Real.log a + b * t)))).r_squared } := by
  have hy : ∀ v ∈ xs.map (fun u => a * Real.exp (b * u)), 0 < v := by
    intro v hv
    obtain ⟨u, _, rfl⟩ := List.mem_map.mp hv
    exact mul_pos ha (Real.exp_pos _)
  unfold exponentialRegressionParams
  simp only [map_realLog_fin _ hy, map_log_exponential a b ha xs]
  rfl

theorem exponential_params_of_model (a b : ℝ) (ha : 0 < a) (xs : List ℝ)
    (hx : ∃ u ∈ xs, ∃ v ∈ xs, u ≠ v) :
    (exponentialRegressionParams realLog realExp (fin xs)
        (fin (xs.map (fun u => a * Real.exp (b * u))))).params
      = (some a, some (Real.exp b)) := by
  rw [exponential_fit_of_model a b ha xs]
  simp only [linear_params_of_affine (Real.log a) b xs hx, realExp, Real.exp_log ha]

theorem foldl_dadd_none (v : Vec ℝ) : v.foldl dadd none = none := by
  induction v with
  | nil => rfl
  | cons a v ih => simpa [List.foldl_cons, dadd] using ih

/-- A non-finite first element of `x` makes the slope non-finite. -/
theorem linearRegressionParams_slope_of_head_none (v y : Vec ℝ) :
    (linearRegressionParams (none :: v) y).params.2 = none := by
  have hs : accumulate (none :: v) = none := by
    simp only [accumulate, List.foldl_cons]
    exact foldl_dadd_none v
  simp only [linearRegressionParams, hs]
  have e : ∀ t : Dbl ℝ, dmul none t = none := fun t => by cases t <;> rfl
  have e2 : ∀ t : Dbl ℝ, dsub t none = none := fun t => by cases t <;> rfl
  rw [e, e2, ddiv_none_left]

theorem log_two_ne_zero : Real.log 2 ≠ 0 :=
  ne_of_gt (Real.log_pos one_lt_two)

theorem pos_one_two : ∀ u ∈ [(1 : ℝ), 2], 0 < u := by
  intro u hu
  simp only [List.mem_cons, List.mem_singleton, List.not_mem_nil, or_false] at hu
  rcases hu with rfl | rfl <;> norm_num

theorem map_realLog_one_two : (fin [(1 : ℝ), 2]).map realLog = fin [0, Real.log 2] := by
  rw [map_realLog_fin _ pos_one_two]
  simp

/-- The power fit of `x = y = [1, 2]`: the log-space line is `0 + 1 * t`. -/
theorem power_fit_one_two :
    powerRegressionParams realLog realExp (fin [1, 2]) (fin [1, 2])
      = { params := (some 1, some 1), x := fin [0, Real.log 2], y := fin [0, Real.log 2],
          r_squared := some 1 } := by
  have hx : ∃ u ∈ [(0 : ℝ), Real.log 2], ∃ v ∈ [(0 : ℝ), Real.log 2], u ≠ v :=
    ⟨0, by simp, Real.log 2, by simp, fun e => log_two_ne_zero e.symm⟩
  have ha : fin ([(0 : ℝ), Real.log 2].map (fun u => 0 + 1 * u)) = fin [0, Real.log 2] := by
    simp
  have hp := linear_params_of_affine 0 1 [(0 : ℝ), Real.log 2] hx
  have hr := r_squared_of_affine 0 1 one_ne_zero [(0 : ℝ), Real.log 2] hx
  rw [ha] at hp hr
  unfold powerRegressionParams
  simp only [map_realLog_one_two]
  rw [Fit.mk.injEq]
  refine ⟨?_, rfl, rfl, hr⟩
  rw [hp]
  simp [realExp]

/-- The exponential fit of `x = y = [1, 2]`: the log-space line is
`-log 2 + log 2 * t`. -/
theorem exponential_fit_one_two :
    exponentialRegressionParams realLog realExp (fin [1, 2]) (fin [1, 2])
      = { params := (some (1 / 2), some 2), x := fin [1, 2], y := fin [0, Real.log 2],
          r_squared := some 1 } := by
  have hx : ∃ u ∈ [(1 : ℝ), 2], ∃ v ∈ [(1 : ℝ), 2], u ≠ v :=
    ⟨1, by simp, 2, by simp, by norm_num⟩
  have ha : fin ([(1 : ℝ), 2].map (fun u => -Real.log 2 + Real.log 2 * u))
      = fin [0, Real.log 2] := by
    have e : -Real.log 2 + Real.log 2 * 2 = Real.log 2 := by ring
    simp [e]
  have hp := linear_params_of_affine (-Real.log 2) (Real.log 2) [(1 : ℝ), 2] hx
  have hr := r_squared_of_affine (-Real.log 2) (Real.log 2) log_two_ne_zero [(1 : ℝ), 2] hx
  rw [ha] at hp hr
  unfold exponentialRegressionParams
  simp only [map_realLog_one_two]
  rw [Fit.mk.injEq]
  refine ⟨?_, rfl, rfl, hr⟩
  rw [hp]
  have e2 : Real.exp (Real.log 2) = 2 := Real.exp_log two_pos
  simp only [realExp, Real.exp_neg, e2]
  norm_num

/-- The evaluator on the untransformed data `x = y = [1, 2]`. -/
theorem RSquared_one_two (a b : ℝ) :
    RSquared (some a, some b) (fin [1, 2]) (fin [1, 2])
      = some (((a + b - 3 / 2) ^ 2 + (a + 2 * b - 3 / 2) ^ 2) / (1 / 2)) := by
  have ht : sumSqTotal [(1 : ℝ), 2] = 1 / 2 := by
    norm_num [sumSqTotal, mean]
  have he : sumSqEstimated a b [(1 : ℝ), 2] [1, 2]
      = (a + b - 3 / 2) ^ 2 + (a + 2 * b - 3 / 2) ^ 2 := by
    norm_num [sumSqEstimated, mean]
    ring
  rw [RSquared_of_sumSqTotal_ne_zero a b _ _ (by simp) (by rw [ht]; norm_num), ht, he]

end RealLemmas

section MoreLemmas

variable {K : Type} [LinearOrderedField K]

theorem sumSqResiduals_nonneg (a b : K) (xs ys : List K) :
    0 ≤ sumSqResiduals a b xs ys := by
  unfold sumSqResiduals
  induction xs generalizing ys with
  | nil => simp
  | cons u xs ih =>
    cases ys with
    | nil => simp
    | cons v ys =>
      simp only [List.zipWith_cons_cons, List.sum_cons]
      have h1 : 0 ≤ (v - a - b * u) ^ 2 := by positivity
      have h2 := ih ys
      linarith

theorem sumSqTotal_pos (ys : List K) (hy : ∃ u ∈ ys, ∃ v ∈ ys, u ≠ v) :
    0 < sumSqTotal ys :=
  lt_of_le_of_ne (sum_map_sq_nonneg _ _) (Ne.symm (sumSqTotal_ne_zero ys hy))

/-- The sum of the residuals `y_i - a - b * x_i`. -/
theorem sum_residuals_expand (a b : K) (xs ys : List K) (h : xs.length = ys.length) :
    (List.zipWith (fun u v => v - a - b * u) xs ys).sum
      = ys.sum - (xs.length : K) * a - b * xs.sum := by
  induction xs generalizing ys with
  | nil =>
    cases ys with
    | nil => simp
    | cons v l => simp at h
  | cons u xs ih =>
    cases ys with
    | nil => simp at h
    | cons v ys =>
      have h1 : xs.length = ys.length := by simpa using h
      simp only [List.zipWith_cons_cons, List.sum_cons, List.length_cons, Nat.cast_add,
        Nat.cast_one, ih ys h1]
      ring

/-! ### Non-finite values -/

theorem dadd_none_left (b : Dbl K) : dadd none b = none := by
  cases b <;> rfl

theorem dadd_none_right (a : Dbl K) : dadd a none = none := by
  cases a <;> rfl

theorem dsub_none_left (b : Dbl K) : dsub none b = none := by
  cases b <;> rfl

theorem dsub_none_right (a : Dbl K) : dsub a none = none := by
  cases a <;> rfl

theorem dmul_none_left (b : Dbl K) : dmul none b = none := by
  cases b <;> rfl

theorem dmul_none_right (a : Dbl K) : dmul a none = none := by
  cases a <;> rfl

theorem foldl_dadd_of_none (v : Vec K) : v.foldl dadd none = none := by
  induction v with
  | nil => rfl
  | cons a v ih => rw [List.foldl_cons, dadd_none_left, ih]

theorem foldl_dadd_of_mem_none (v : Vec K) (h : none ∈ v) (a : Dbl K) :
    v.foldl dadd a = none := by
  induction v generalizing a with
  | nil => simp at h
  | cons b v ih =>
    rw [List.foldl_cons]
    rcases List.mem_cons.mp h with hb | hv
    · rw [← hb, dadd_none_right, foldl_dadd_of_none]
    · exact ih hv _

/-- A sum over a vector with a non-finite element is non-finite. -/
theorem accumulate_of_mem_none (v : Vec K) (h : none ∈ v) : accumulate v = none :=
  foldl_dadd_of_mem_none v h _

theorem linearRegressionParams_of_sum_x_none (x y : Vec K) (h : accumulate x = none) :
    (linearRegressionParams x y).params = (none, none) := by
  simp only [linearRegressionParams, h, dmul_none_left, dmul_none_right, dsub_none_right,
    dsub_none_left, ddiv_none_left]

theorem linearRegressionParams_of_sum_y_none (x y : Vec K) (h : accumulate y = none) :
    (linearRegressionParams x y).params = (none, none) := by
  simp only [linearRegressionParams, h, dmul_none_left, dmul_none_right, dsub_none_right,
    dsub_none_left, ddiv_none_left]

/-- With a non-finite slope every estimated value is non-finite, and so is the
result of `RSquared` on a non-empty `x_data`. -/
theorem RSquared_of_slope_none (c : Dbl K) (x y : Vec K) (hx : x ≠ []) :
    RSquared (c, none) x y = none := by
  have hd : ∀ m : Dbl K, accumulate (deltaEstimatedSquared (c, none) x m) = none := by
    intro m
    apply accumulate_of_mem_none
    unfold deltaEstimatedSquared
    rw [foldl_push_back]
    obtain ⟨a, l, rfl⟩ := List.exists_cons_of_ne_nil hx
    simp [dmul_none_left, dadd_none_right, dsub_none_left, dpow2]
  simp only [RSquared, hd, ddiv_none_left]

/-- A fit whose returned pair is non-finite has a non-finite `r_squared`. -/
theorem linearRegressionParams_r_squared_of_none (x y : Vec K) (hx : x ≠ [])
    (h : (linearRegressionParams x y).params = (none, none)) :
    (linearRegressionParams x y).r_squared = none := by
  rw [linearRegressionParams_r_squared, h]
  exact RSquared_of_slope_none none x y hx

/-- The data of a constant sequence has zero total sum of squares. -/
theorem sumSqTotal_of_constant (c : K) (ys : List K) (hne : ys ≠ [])
    (hc : ∀ v ∈ ys, v = c) : sumSqTotal ys = 0 := by
  have hn := natCast_length_ne_zero (K := K) hne
  have hs : ∀ l : List K, (∀ v ∈ l, v = c) → l.sum = (l.length : K) * c := by
    intro l
    induction l with
    | nil => simp
    | cons v l ih =>
      intro hl
      have hv : v = c := hl v (List.mem_cons_self _ _)
      have := ih fun w hw => hl w (List.mem_cons_of_mem _ hw)
      simp only [List.sum_cons, List.length_cons, Nat.cast_add, Nat.cast_one, this, hv]
      ring
  have hm : mean ys = c := by
    unfold mean
    rw [hs ys hc]
    field_simp
  unfold sumSqTotal
  rw [hm]
  apply List.sum_eq_zero
  intro t ht
  obtain ⟨v, hv, rfl⟩ := List.mem_map.mp ht
  rw [hc v hv]
  ring

/-- The loop of `linearRegressionParams` when `y` is at least as long as `x`:
only the first `x.size()` elements of `y` are read. -/
theorem sumLoop_prefix_le (xs ys : List K) (h : xs.length ≤ ys.length) (k : ℕ)
    (hk : k ≤ xs.length) :
    (List.range k).foldl
      (fun (s : Dbl K × Dbl K) i =>
        (dadd s.1 (dmul ((fin xs).getD i none) ((fin xs).getD i none)),
         dadd s.2 (dmul ((fin xs).getD i none) ((fin ys).getD i none))))
      (some 0, some 0)
    = (some (sumXX (xs.take k)), some (sumXY (xs.take k) (ys.take k))) := by
  induction k with
  | zero => simp [sumXX, sumXY]
  | succ k ih =>
    have hx : k < xs.length := hk
    have hy : k < ys.length := lt_of_lt_of_le hx h
    rw [List.range_succ, List.foldl_append, ih (Nat.le_of_lt hx)]
    have ex : (fin xs).getD k none = some xs[k] := by
      simp [fin, List.getD, hx]
    have ey : (fin ys).getD k none = some ys[k] := by
      simp [fin, List.getD, hy]
    have tx : xs.take (k + 1) = xs.take k ++ [xs[k]] := by
      rw [List.take_succ]; simp [hx]
    have ty : ys.take (k + 1) = ys.take k ++ [ys[k]] := by
      rw [List.take_succ]; simp [hy]
    have hl : (xs.take k).length = (ys.take k).length := by
      rw [List.length_take, List.length_take, min_eq_left (le_of_lt hx),
        min_eq_left (le_of_lt hy)]
    rw [tx, ty]
    simp only [List.foldl_cons, List.foldl_nil, ex, ey, dmul_some, dadd_some, sumXX,
      sumXY, List.map_append, List.sum_append, List.zipWith_append _ _ _ _ _ hl,
      List.map_cons, List.map_nil, List.sum_cons, List.sum_nil, add_zero,
      List.zipWith_cons_cons, List.zipWith_nil_left]

theorem sumLoop_fin_le (xs ys : List K) (h : xs.length ≤ ys.length) :
    sumLoop (fin xs) (fin ys)
      = (some (sumXX xs), some (sumXY xs (ys.take xs.length))) := by
  have := sumLoop_prefix_le xs ys h xs.length le_rfl
  have hl : (fin xs).length = xs.length := by simp [fin]
  unfold sumLoop
  rw [hl, this, List.take_length]

theorem ddiv_zero_right (a : Dbl K) : ddiv a (some (0 : K)) = none := by
  cases a with
  | none => rfl
  | some u => exact ddiv_some_zero u

/-- A zero value of the computed `denominator` makes the slope, the intercept
and `r_squared` non-finite. -/
theorem linearRegressionParams_of_denominator_zero (x y : Vec K) (hx : x ≠ [])
    (h : denominator x y = some 0) :
    linearRegressionParams x y
      = { params := (none, none), x := x, y := y, r_squared := none } := by
  have hs : (linearRegressionParams x y).params.2
      = ddiv (dsub (dmul (some (x.length : K)) (sumLoop x y).2)
          (dmul (accumulate x) (accumulate y))) (denominator x y) := rfl
  have hi : (linearRegressionParams x y).params.1
      = ddiv (dsub (accumulate y)
          (dmul (linearRegressionParams x y).params.2 (accumulate x)))
          (some (x.length : K)) := rfl
  rw [h, ddiv_zero_right] at hs
  rw [hs, dmul_none_left, dsub_none_right, ddiv_none_left] at hi
  have hp : (linearRegressionParams x y).params = (none, none) := Prod.ext hi hs
  have hr := linearRegressionParams_r_squared_of_none x y hx hp
  have e : linearRegressionParams x y
      = { params := (linearRegressionParams x y).params, x := x, y := y,
          r_squared := (linearRegressionParams x y).r_squared } := rfl
  rw [e, hp, hr]

/-- In exact arithmetic the computed `denominator` is `n * Sxx - Sx^2`. -/
theorem denominator_fin (xs ys : List K) (h : xs.length = ys.length) :
    denominator (fin xs) (fin ys)
      = some ((xs.length : K) * sumXX xs - xs.sum * xs.sum) := by
  have hl : (fin xs).length = xs.length := by simp [fin]
  simp only [denominator, sumLoop_fin xs ys h, accumulate_fin, hl, dmul_some, dsub_some]

/-- A zero value of the computed `dms_mean` makes the result of `RSquared`
non-finite. -/
theorem RSquared_of_dms_mean_zero (params : Dbl K × Dbl K) (x_data y_data : Vec K)
    (h : dms_mean y_data = some 0) : RSquared params x_data y_data = none := by
  have e : RSquared params x_data y_data
      = ddiv
          (ddiv (accumulate (deltaEstimatedSquared params x_data
            (ddiv (accumulate y_data) (some (y_data.length : K)))))
            (some (y_data.length : K)))
          (dms_mean y_data) := rfl
  rw [e, h, ddiv_zero_right]

/-- In exact arithmetic the computed `dms_mean` of identical values is zero. -/
theorem dms_mean_of_constant (c : K) (ys : List K) (hne : ys ≠ [])
    (hc : ∀ v ∈ ys, v = c) : dms_mean (fin ys) = some 0 := by
  have hn := natCast_length_ne_zero (K := K) hne
  have hl : (fin ys).length = ys.length := by simp [fin]
  have ht := sumSqTotal_of_constant c ys hne hc
  unfold sumSqTotal mean at ht
  unfold dms_mean
  rw [hl, accumulate_fin, ddiv_some_of_ne _ hn, deltaMeanSquared_fin,
    accumulate_zeros_append, ht, ddiv_some_of_ne _ hn, zero_div]

end MoreLemmas

section MoreRealLemmas

/-- The logarithm of a vector with a non-positive element has a non-finite
element. -/
theorem none_mem_map_realLog (xs : List ℝ) (h : ∃ u ∈ xs, u ≤ 0) :
    none ∈ (fin xs).map realLog := by
  obtain ⟨u, hu, hu0⟩ := h
  refine List.mem_map.mpr ⟨some u, List.mem_map_of_mem _ hu, ?_⟩
  simp [realLog, not_lt.mpr hu0]

theorem map_realLog_ne_nil {xs : List ℝ} (h : xs ≠ []) : (fin xs).map realLog ≠ [] := by
  simpa [fin] using h

end MoreRealLemmas

section Claims

variable {K : Type} [LinearOrderedField K]

/-- C2: on sequences `x`, `y` of equal non-zero length `n`,
`linearRegressionParams` returns the pair whose second component is
`slope = (n*Sxy - Sx*Sy) / (n*Sxx - Sx^2)` and whose first component is
`intercept = (Sy - slope*Sx) / n`, the four sums being those of the data; when
the denominator is not zero both are the numbers of the closed form. -/
theorem linearRegressionParams_closed_form (xs ys : List K)
    (h : xs.length = ys.length) (hne : xs ≠ []) :
    (linearRegressionParams (fin xs) (fin ys)).params.2
        = ddiv (some ((xs.length : K) * sumXY xs ys - xs.sum * ys.sum))
            (some ((xs.length : K) * sumXX xs - xs.sum * xs.sum))
    ∧ (linearRegressionParams (fin xs) (fin ys)).params.1
        = ddiv (dsub (some ys.sum)
              (dmul (linearRegressionParams (fin xs) (fin ys)).params.2 (some xs.sum)))
            (some (xs.length : K))
    ∧ ((xs.length : K) * sumXX xs - xs.sum * xs.sum ≠ 0 →
        (linearRegressionParams (fin xs) (fin ys)).params
          = (some ((ys.sum - specSlope xs ys * xs.sum) / (xs.length : K)),
             some (((xs.length : K) * sumXY xs ys - xs.sum * ys.sum)
               / ((xs.length : K) * sumXX xs - xs.sum * xs.sum)))) := by
  refine ⟨?_, ?_, fun hd => ?_⟩
  · rw [linearRegressionParams_params_fin xs ys h]
  · rw [linearRegressionParams_params_fin xs ys h]
  · exact linearRegressionParams_params_of_ne xs ys h hne hd

theorem linearRegressionParams_closed_form_witness :
    (linearRegressionParams (fin [(0 : ℚ), 1, 2]) (fin [1, 3, 6])).params
      = (some (5 / 6), some (5 / 2)) := by
  have h := (linearRegressionParams_closed_form [(0 : ℚ), 1, 2] [1, 3, 6] rfl
    (by simp)).2.2 (by norm_num [sumXX])
  rw [h]
  norm_num [specSlope, specDenominator, sumXX, sumXY]

/-- C3: for every finite `(intercept, slope)` and sequences `x`, `y` of equal
non-zero length `n`, `RSquared` returns
`(1/n * sum_i (intercept + slope*x_i - ybar)^2) / (1/n * sum_i (y_i - ybar)^2)`
with `ybar = (sum y_i)/n`; each of the two work vectors holds `2n` entries, the
first `n` of them zero, and these do not change the value. -/
theorem RSquared_formula (a b : K) (xs ys : List K)
    (h : xs.length = ys.length) (hne : ys ≠ []) :
    RSquared (some a, some b) (fin xs) (fin ys)
        = ddiv
            (some (1 / (ys.length : K)
              * (xs.map (fun u => (a + b * u - ys.sum / (ys.length : K)) ^ 2)).sum))
            (some (1 / (ys.length : K)
              * (ys.map (fun v => (v - ys.sum / (ys.length : K)) ^ 2)).sum))
    ∧ (deltaMeanSquared (fin ys) (some (ys.sum / (ys.length : K)))).length
        = 2 * ys.length
    ∧ (deltaEstimatedSquared (some a, some b) (fin xs)
          (some (ys.sum / (ys.length : K)))).length = 2 * ys.length
    ∧ (deltaMeanSquared (fin ys) (some (ys.sum / (ys.length : K)))).take ys.length
        = List.replicate ys.length (some 0)
    ∧ (deltaEstimatedSquared (some a, some b) (fin xs)
          (some (ys.sum / (ys.length : K)))).take ys.length
        = List.replicate ys.length (some 0) := by
  refine ⟨?_, ?_, ?_, ?_, ?_⟩
  · have e : ∀ s : K, 1 / (ys.length : K) * s = s / (ys.length : K) := fun s => by ring
    rw [RSquared_fin a b xs ys hne, e, e]
    rfl
  · rw [deltaMeanSquared_fin]; simp [fin]; omega
  · rw [deltaEstimatedSquared_fin]; simp [fin]; omega
  · rw [deltaMeanSquared_fin]; simp
  · rw [deltaEstimatedSquared_fin, ← h]; simp

theorem RSquared_formula_witness :
    RSquared (some (1 : ℚ), some 1) (fin [0, 1]) (fin [1, 3]) = some (1 / 2) := by
  rw [(RSquared_formula (1 : ℚ) 1 [0, 1] [1, 3] rfl (by simp)).1]
  norm_num [ddiv_some]

/-- C1: least-squares optimality.  For sequences `x`, `y` of equal non-zero
length `n` with `n*sum(x_i^2) - (sum x_i)^2 != 0`, `linearRegressionParams`
returns a finite pair `(intercept, slope)` whose sum of squared residuals is at
most that of every other line `a + b*x`. -/
theorem linearRegressionParams_least_squares (xs ys : List K)
    (h : xs.length = ys.length) (hne : xs ≠ [])
    (hd : (xs.length : K) * sumXX xs - xs.sum * xs.sum ≠ 0) :
    ∃ c m : K, (linearRegressionParams (fin xs) (fin ys)).params = (some c, some m)
      ∧ ∀ a b : K,
        (List.zipWith (fun u v => (v - c - m * u) ^ 2) xs ys).sum
          ≤ (List.zipWith (fun u v => (v - a - b * u) ^ 2) xs ys).sum := by
  refine ⟨specIntercept xs ys, specSlope xs ys,
    linearRegressionParams_params_of_ne xs ys h hne hd, fun a b => ?_⟩
  have e := sumSqResiduals_sub a b xs ys h hne hd
  have p := sum_map_sq_nonneg
    (fun u => (a - specIntercept xs ys) + (b - specSlope xs ys) * u) xs
  unfold sumSqResiduals at e
  linarith

theorem linearRegressionParams_least_squares_witness :
    ∃ c m : ℚ, (linearRegressionParams (fin [0, 1, 2]) (fin [1, 3, 6])).params
        = (some c, some m)
      ∧ ∀ a b : ℚ,
        (List.zipWith (fun u v => (v - c - m * u) ^ 2) [0, 1, 2] [1, 3, 6]).sum
          ≤ (List.zipWith (fun u v => (v - a - b * u) ^ 2) [0, 1, 2] [1, 3, 6]).sum :=
  linearRegressionParams_least_squares [(0 : ℚ), 1, 2] [1, 3, 6] rfl (by simp)
    (by norm_num [sumXX])

/-- C5: exact recovery of linear parameters.  For every `a`, `b` and every
sequence `x` whose values are not all equal (hence non-empty), on
`y_i = a + b*x_i` the function `linearRegressionParams` returns exactly
`(intercept, slope) = (a, b)`. -/
theorem linearRegressionParams_exact_recovery (a b : K) (xs : List K)
    (hx : ∃ u ∈ xs, ∃ v ∈ xs, u ≠ v) :
    (linearRegressionParams (fin xs) (fin (xs.map (fun u => a + b * u)))).params
      = (some a, some b) :=
  linear_params_of_affine a b xs hx

theorem linearRegressionParams_exact_recovery_witness :
    (linearRegressionParams (fin [(0 : ℚ), 1, 3])
        (fin ([(0 : ℚ), 1, 3].map (fun u => 2 + 5 * u)))).params
      = (some 2, some 5) :=
  linearRegressionParams_exact_recovery 2 5 [0, 1, 3]
    ⟨0, by simp, 1, by simp, by norm_num⟩

/-- C6 as stated fails: with `a = 0`, `b = 0` and `x = [0, 1]` the data `y` is
constant, the divisor of `RSquared` is zero, and `r_squared` is a non-finite
value, not 1. -/
theorem r_squared_noise_free_counterexample :
    (linearRegressionParams (fin [(0 : ℝ), 1])
        (fin ([(0 : ℝ), 1].map (fun u => 0 + 0 * u)))).r_squared = none
    ∧ (linearRegressionParams (fin [(0 : ℝ), 1])
        (fin ([(0 : ℝ), 1].map (fun u => 0 + 0 * u)))).r_squared ≠ some 1 := by
  have h : (linearRegressionParams (fin [(0 : ℝ), 1])
      (fin ([(0 : ℝ), 1].map (fun u => 0 + 0 * u)))).r_squared = none := by
    rw [linearRegressionParams_r_squared,
      linear_params_of_affine 0 0 [0, 1] ⟨0, by simp, 1, by simp, by norm_num⟩,
      RSquared_of_sumSqTotal_eq_zero _ _ _ _ (by simp) (by simp [sumSqTotal, mean])]
  rw [h]
  exact ⟨rfl, by simp⟩

/-- C6 (amended): for every `a`, every `b ≠ 0` and every sequence `x` whose
values are not all equal, on `y_i = a + b*x_i` the function
`linearRegressionParams` sets `r_squared` to 1. -/
theorem r_squared_noise_free (a b : K) (hb : b ≠ 0) (xs : List K)
    (hx : ∃ u ∈ xs, ∃ v ∈ xs, u ≠ v) :
    (linearRegressionParams (fin xs) (fin (xs.map (fun u => a + b * u)))).r_squared
      = some 1 :=
  r_squared_of_affine a b hb xs hx

theorem r_squared_noise_free_witness :
    (linearRegressionParams (fin [(0 : ℚ), 1, 3])
        (fin ([(0 : ℚ), 1, 3].map (fun u => 2 + 5 * u)))).r_squared = some 1 :=
  r_squared_noise_free 2 5 (by norm_num) [0, 1, 3]
    ⟨0, by simp, 1, by simp, by norm_num⟩

/-- C10: for a least-squares linear fit the reported `r_squared` is the
textbook one.  For `x`, `y` of equal non-zero length `n` with
`n*sum(x_i^2) - (sum x_i)^2 != 0` and `y` not constant, with
`(intercept, slope)` the returned pair and `yhat_i = intercept + slope*x_i`,
`r_squared = 1 - sum_i (y_i - yhat_i)^2 / sum_i (y_i - ybar)^2`. -/
theorem r_squared_eq_textbook (xs ys : List K)
    (h : xs.length = ys.length) (hne : xs ≠ [])
    (hd : (xs.length : K) * sumXX xs - xs.sum * xs.sum ≠ 0)
    (hy : ∃ u ∈ ys, ∃ v ∈ ys, u ≠ v) :
    ∃ c m : K, (linearRegressionParams (fin xs) (fin ys)).params = (some c, some m)
      ∧ (linearRegressionParams (fin xs) (fin ys)).r_squared
        = some (1 - (List.zipWith (fun u v => (v - (c + m * u)) ^ 2) xs ys).sum
            / (ys.map (fun v => (v - ys.sum / (ys.length : K)) ^ 2)).sum) := by
  have hp := linearRegressionParams_params_of_ne xs ys h hne hd
  refine ⟨specIntercept xs ys, specSlope xs ys, hp, ?_⟩
  have hney : ys ≠ [] := by
    obtain ⟨u, hu, _⟩ := hy
    exact List.ne_nil_of_mem hu
  have ht := sumSqTotal_ne_zero ys hy
  have hdec := sumSqTotal_decomp xs ys h hne hd
  have hres : (List.zipWith (fun u v => (v - (specIntercept xs ys + specSlope xs ys * u)) ^ 2)
      xs ys).sum = sumSqResiduals (specIntercept xs ys) (specSlope xs ys) xs ys := by
    unfold sumSqResiduals
    congr 1
    refine congrArg (fun f => List.zipWith f xs ys) ?_
    funext u v
    ring
  have htot : (ys.map (fun v => (v - ys.sum / (ys.length : K)) ^ 2)).sum = sumSqTotal ys :=
    rfl
  rw [linearRegressionParams_r_squared, hp,
    RSquared_of_sumSqTotal_ne_zero _ _ _ _ hney ht, hres, htot]
  congr 1
  rw [eq_sub_iff_add_eq, ← add_div, ← hdec, div_self ht]

theorem r_squared_eq_textbook_witness :
    ∃ c m : ℚ, (linearRegressionParams (fin [0, 1, 2]) (fin [1, 3, 6])).params
        = (some c, some m)
      ∧ (linearRegressionParams (fin [0, 1, 2]) (fin [1, 3, 6])).r_squared
        = some (1 - (List.zipWith (fun u v => (v - (c + m * u)) ^ 2) [0, 1, 2] [1, 3, 6]).sum
            / (([1, 3, 6] : List ℚ).map
                (fun v => (v - ([1, 3, 6] : List ℚ).sum
                  / ((([1, 3, 6] : List ℚ).length : ℕ) : ℚ)) ^ 2)).sum) :=
  r_squared_eq_textbook [(0 : ℚ), 1, 2] [1, 3, 6] rfl (by simp) (by norm_num [sumXX])
    ⟨1, by simp, 3, by simp, by norm_num⟩

end Claims

section RealClaims

/-- C7: exact recovery of power-law parameters.  For every `a > 0`, every
real `b` and every sequence of strictly positive `x` values that are not all
equal (hence non-empty), on `y_i = a * x_i^b` the function
`powerRegressionParams` returns exactly `(a, b)`. -/
theorem powerRegressionParams_exact_recovery (a b : ℝ) (ha : 0 < a) (xs : List ℝ)
    (hpos : ∀ u ∈ xs, 0 < u) (hx : ∃ u ∈ xs, ∃ v ∈ xs, u ≠ v) :
    (powerRegressionParams realLog realExp (fin xs)
        (fin (xs.map (fun u => a * u ^ b)))).params = (some a, some b) := by
  rw [power_fit_of_model a b ha xs hpos]
  simp only [linear_params_of_affine (Real.log a) b _ (map_log_not_all_equal xs hpos hx),
    realExp, Real.exp_log ha]

theorem powerRegressionParams_exact_recovery_witness :
    (powerRegressionParams realLog realExp (fin [1, 2])
        (fin ([1, 2].map (fun u => 3 * u ^ (5 : ℝ))))).params = (some 3, some 5) :=
  powerRegressionParams_exact_recovery 3 5 (by norm_num) [1, 2]
    (by intro u hu; simp at hu; rcases hu with rfl | rfl <;> norm_num)
    ⟨1, by simp, 2, by simp, by norm_num⟩

/-- C8 as stated fails: on the data `y_i = 1 * e^(0 * x_i)`, `x = [0, 1]`, the
pair returned by `exponentialRegressionParams` is not `(1, 0)`. -/
theorem exponentialRegressionParams_exact_recovery_counterexample :
    (exponentialRegressionParams realLog realExp (fin [0, 1])
        (fin ([0, 1].map (fun u => 1 * Real.exp (0 * u))))).params ≠ (some 1, some 0) := by
  rw [exponential_params_of_model 1 0 one_pos [0, 1] ⟨0, by simp, 1, by simp, by norm_num⟩]
  simp

/-- C8 (amended): for every `a > 0`, every real `b` and every sequence `x`
whose values are not all equal, on `y_i = a * e^(b*x_i)` the function
`exponentialRegressionParams` returns exactly `(a, e^b)`: the fitted slope `b`
is exponentiated before it is returned. -/
theorem exponentialRegressionParams_recovery (a b : ℝ) (ha : 0 < a) (xs : List ℝ)
    (hx : ∃ u ∈ xs, ∃ v ∈ xs, u ≠ v) :
    (exponentialRegressionParams realLog realExp (fin xs)
        (fin (xs.map (fun u => a * Real.exp (b * u))))).params
      = (some a, some (Real.exp b)) :=
  exponential_params_of_model a b ha xs hx

theorem exponentialRegressionParams_recovery_witness :
    (exponentialRegressionParams realLog realExp (fin [0, 1])
        (fin ([0, 1].map (fun u => 3 * Real.exp (5 * u))))).params
      = (some 3, some (Real.exp 5)) :=
  exponentialRegressionParams_recovery 3 5 (by norm_num) [0, 1]
    ⟨0, by simp, 1, by simp, by norm_num⟩

/-- C4 as stated fails for both fits: on `x = y = [1, 2]` the `r_squared` set
by `powerRegressionParams` (resp. `exponentialRegressionParams`) is not the
value of `RSquared` on the returned pair and the data as it was before the
call. -/
theorem r_squared_original_data_counterexample :
    (powerRegressionParams realLog realExp (fin [1, 2]) (fin [1, 2])).r_squared
        ≠ RSquared (powerRegressionParams realLog realExp (fin [1, 2]) (fin [1, 2])).params
            (fin [1, 2]) (fin [1, 2])
    ∧ (exponentialRegressionParams realLog realExp (fin [1, 2]) (fin [1, 2])).r_squared
        ≠ RSquared
            (exponentialRegressionParams realLog realExp (fin [1, 2]) (fin [1, 2])).params
            (fin [1, 2]) (fin [1, 2]) := by
  rw [power_fit_one_two, exponential_fit_one_two]
  simp only [RSquared_one_two]
  constructor <;> norm_num

/-- C4 (amended): for strictly positive `x`, `y` the `r_squared` set by
`powerRegressionParams` is the value of `RSquared` on the log-space pair
`(c, m)` of the linear fit and on the log-transformed data `(ln x, ln y)`, the
returned pair being `(exp c, m)`; the `r_squared` set by
`exponentialRegressionParams` is the value of `RSquared` on the log-space pair
and on `(x, ln y)`, the returned pair being `(exp c, exp m)`. -/
theorem r_squared_log_space (xs ys : List ℝ)
    (hx : ∀ u ∈ xs, 0 < u) (hy : ∀ v ∈ ys, 0 < v) :
    ((powerRegressionParams realLog realExp (fin xs) (fin ys)).r_squared
        = RSquared
            (linearRegressionParams (fin (xs.map Real.log)) (fin (ys.map Real.log))).params
            (fin (xs.map Real.log)) (fin (ys.map Real.log))
      ∧ (powerRegressionParams realLog realExp (fin xs) (fin ys)).params
        = (realExp
            (linearRegressionParams (fin (xs.map Real.log))
              (fin (ys.map Real.log))).params.1,
           (linearRegressionParams (fin (xs.map Real.log))
              (fin (ys.map Real.log))).params.2))
    ∧ ((exponentialRegressionParams realLog realExp (fin xs) (fin ys)).r_squared
        = RSquared (linearRegressionParams (fin xs) (fin (ys.map Real.log))).params
            (fin xs) (fin (ys.map Real.log))
      ∧ (exponentialRegressionParams realLog realExp (fin xs) (fin ys)).params
        = (realExp (linearRegressionParams (fin xs) (fin (ys.map Real.log))).params.1,
           realExp (linearRegressionParams (fin xs) (fin (ys.map Real.log))).params.2)) := by
  have ex := map_realLog_fin xs hx
  have ey := map_realLog_fin ys hy
  refine ⟨⟨?_, ?_⟩, ?_, ?_⟩
  · simp only [powerRegressionParams, ex, ey, linearRegressionParams_r_squared]
  · simp only [powerRegressionParams, ex, ey]
  · simp only [exponentialRegressionParams, ey, linearRegressionParams_r_squared]
  · simp only [exponentialRegressionParams, ey]

theorem r_squared_log_space_witness :
    (powerRegressionParams realLog realExp (fin [1, 2]) (fin [1, 2])).r_squared
      = RSquared
          (linearRegressionParams (fin ([1, 2].map Real.log))
            (fin ([1, 2].map Real.log))).params
          (fin ([1, 2].map Real.log)) (fin ([1, 2].map Real.log)) :=
  (r_squared_log_space [1, 2] [1, 2] pos_one_two pos_one_two).1.1

/-- C9 as stated fails: `powerRegressionParams` on `x = y = [1, 2]` leaves
other values in the caller's `x` and `y`, and a second call on the same
buffers returns another pair. -/
theorem fit_repeatable_counterexample :
    (powerRegressionParams realLog realExp (fin [1, 2]) (fin [1, 2])).x ≠ fin [1, 2]
    ∧ (powerRegressionParams realLog realExp (fin [1, 2]) (fin [1, 2])).y ≠ fin [1, 2]
    ∧ (powerRegressionParams realLog realExp
          (powerRegressionParams realLog realExp (fin [1, 2]) (fin [1, 2])).x
          (powerRegressionParams realLog realExp (fin [1, 2]) (fin [1, 2])).y).params
        ≠ (powerRegressionParams realLog realExp (fin [1, 2]) (fin [1, 2])).params := by
  rw [power_fit_one_two]
  refine ⟨by simp [fin], by simp [fin], ?_⟩
  intro h
  have h2 := congrArg Prod.snd h
  have hl : (fin [(0 : ℝ), Real.log 2]).map realLog
      = none :: (fin [Real.log 2]).map realLog := by
    simp [fin, realLog]
  simp only [powerRegressionParams, hl, linearRegressionParams_slope_of_head_none] at h2
  simp at h2

end RealClaims

section Frame

variable {K : Type} [LinearOrderedField K]

/-- C9 (amended): `linearRegressionParams` leaves the caller's `x` and `y` as
they were, so a second call on the same buffers gives the same result;
`powerRegressionParams` leaves in `x` and `y` the logarithms of their
elements, and `exponentialRegressionParams` leaves `x` as it was and in `y`
the logarithms of its elements, so a second call of either on the same
buffers is a call on the transformed data. -/
theorem fit_frame (log exp : Dbl K → Dbl K) (x y : Vec K) :
    ((linearRegressionParams x y).x = x ∧ (linearRegressionParams x y).y = y
      ∧ linearRegressionParams (linearRegressionParams x y).x (linearRegressionParams x y).y
          = linearRegressionParams x y)
    ∧ ((powerRegressionParams log exp x y).x = x.map log
      ∧ (powerRegressionParams log exp x y).y = y.map log
      ∧ powerRegressionParams log exp (powerRegressionParams log exp x y).x
            (powerRegressionParams log exp x y).y
          = powerRegressionParams log exp (x.map log) (y.map log))
    ∧ ((exponentialRegressionParams log exp x y).x = x
      ∧ (exponentialRegressionParams log exp x y).y = y.map log
      ∧ exponentialRegressionParams log exp (exponentialRegressionParams log exp x y).x
            (exponentialRegressionParams log exp x y).y
          = exponentialRegressionParams log exp x (y.map log)) :=
  ⟨⟨rfl, rfl, rfl⟩, ⟨rfl, rfl, rfl⟩, ⟨rfl, rfl, rfl⟩⟩

end Frame

section LinearClaims

variable {K : Type} [LinearOrderedField K]

/-- C11: the R-squared of a linear fit lies in `[0, 1]`.  For `x`, `y` of equal
non-zero length `n` with `n*sum(x_i^2) - (sum x_i)^2 != 0` and `y` not
constant, the `r_squared` set by `linearRegressionParams` is a number `r`
with `0 <= r <= 1`. -/
theorem r_squared_mem_unit_interval (xs ys : List K)
    (h : xs.length = ys.length) (hne : xs ≠ [])
    (hd : (xs.length : K) * sumXX xs - xs.sum * xs.sum ≠ 0)
    (hy : ∃ u ∈ ys, ∃ v ∈ ys, u ≠ v) :
    ∃ r : K, (linearRegressionParams (fin xs) (fin ys)).r_squared = some r
      ∧ 0 ≤ r ∧ r ≤ 1 := by
  have hp := linearRegressionParams_params_of_ne xs ys h hne hd
  have hney : ys ≠ [] := by
    obtain ⟨u, hu, _⟩ := hy
    exact List.ne_nil_of_mem hu
  have ht := sumSqTotal_pos ys hy
  have hdec := sumSqTotal_decomp xs ys h hne hd
  have hres := sumSqResiduals_nonneg (specIntercept xs ys) (specSlope xs ys) xs ys
  have hest : 0 ≤ sumSqEstimated (specIntercept xs ys) (specSlope xs ys) xs ys :=
    sum_map_sq_nonneg _ _
  refine ⟨sumSqEstimated (specIntercept xs ys) (specSlope xs ys) xs ys / sumSqTotal ys,
    ?_, div_nonneg hest (le_of_lt ht), ?_⟩
  · rw [linearRegressionParams_r_squared, hp,
      RSquared_of_sumSqTotal_ne_zero _ _ _ _ hney (ne_of_gt ht)]
  · rw [div_le_one ht]
    linarith

theorem r_squared_mem_unit_interval_witness :
    ∃ r : ℚ, (linearRegressionParams (fin [0, 1, 2]) (fin [1, 3, 6])).r_squared = some r
      ∧ 0 ≤ r ∧ r ≤ 1 :=
  r_squared_mem_unit_interval [(0 : ℚ), 1, 2] [1, 3, 6] rfl (by simp)
    (by norm_num [sumXX]) ⟨1, by simp, 3, by simp, by norm_num⟩

/-- C20 as stated fails: for `x = [2, 2]`, `y = [1, 3]` (equal non-zero length,
all `x` equal) the returned intercept and slope are non-finite, and
`intercept + slope * (sum x_i / n)` is not the number `sum y_i / n = 2`. -/
theorem centroid_counterexample :
    (linearRegressionParams (fin [(2 : ℚ), 2]) (fin [1, 3])).params = (none, none)
    ∧ dadd (linearRegressionParams (fin [(2 : ℚ), 2]) (fin [1, 3])).params.1
        (dmul (linearRegressionParams (fin [(2 : ℚ), 2]) (fin [1, 3])).params.2
          (ddiv (some (2 + 2)) (some 2)))
      ≠ ddiv (some (1 + 3)) (some 2) := by
  have hp : (linearRegressionParams (fin [(2 : ℚ), 2]) (fin [1, 3])).params
      = (none, none) := by
    rw [linearRegressionParams_params_fin [(2 : ℚ), 2] [1, 3] rfl]
    norm_num [sumXX, sumXY, ddiv_some, dmul, dsub]
  rw [hp]
  refine ⟨rfl, ?_⟩
  intro e
  have e2 : (none : Dbl ℚ) = ddiv (some (1 + 3)) (some 2) := e
  norm_num [ddiv_some] at e2
  exact Option.noConfusion e2

/-- C20 (amended): the fitted line passes through the centroid of the data
when the denominator is not zero.  For `x`, `y` of equal non-zero length `n`
with `n*sum(x_i^2) - (sum x_i)^2 != 0`, the returned `(intercept, slope)`
satisfies `intercept + slope * (sum x_i / n) = sum y_i / n`, and the
residuals `y_i - intercept - slope*x_i` sum to zero. -/
theorem fitted_line_through_centroid (xs ys : List K)
    (h : xs.length = ys.length) (hne : xs ≠ [])
    (hd : (xs.length : K) * sumXX xs - xs.sum * xs.sum ≠ 0) :
    ∃ c m : K, (linearRegressionParams (fin xs) (fin ys)).params = (some c, some m)
      ∧ c + m * (xs.sum / (xs.length : K)) = ys.sum / (xs.length : K)
      ∧ (List.zipWith (fun u v => v - c - m * u) xs ys).sum = 0 := by
  have hn := natCast_length_ne_zero (K := K) hne
  have n1 := normal_eq_one xs ys hne
  refine ⟨specIntercept xs ys, specSlope xs ys,
    linearRegressionParams_params_of_ne xs ys h hne hd, ?_, ?_⟩
  · field_simp
    linear_combination n1
  · rw [sum_residuals_expand _ _ xs ys h]
    linear_combination -n1

theorem fitted_line_through_centroid_witness :
    ∃ c m : ℚ, (linearRegressionParams (fin [0, 1, 2]) (fin [1, 3, 6])).params
        = (some c, some m)
      ∧ c + m * (([0, 1, 2] : List ℚ).sum / ((([0, 1, 2] : List ℚ).length : ℕ) : ℚ))
        = ([1, 3, 6] : List ℚ).sum / ((([0, 1, 2] : List ℚ).length : ℕ) : ℚ)
      ∧ (List.zipWith (fun u v => v - c - m * u) [0, 1, 2] [1, 3, 6]).sum = 0 :=
  fitted_line_through_centroid [(0 : ℚ), 1, 2] [1, 3, 6] rfl (by simp)
    (by norm_num [sumXX])

/-- C12 as stated fails: on `x = [2, 2, 2, 2]`, `y = [1, 2, 3, 4]` the function
signals nothing; it returns, with the non-finite pair obtained by dividing by
zero. -/
theorem degenerate_x_counterexample :
    linearRegressionParams (fin [(2 : ℚ), 2, 2, 2]) (fin [1, 2, 3, 4])
      = { params := (none, none), x := fin [2, 2, 2, 2], y := fin [1, 2, 3, 4],
          r_squared := none } := by
  have hp : (linearRegressionParams (fin [(2 : ℚ), 2, 2, 2]) (fin [1, 2, 3, 4])).params
      = (none, none) := by
    rw [linearRegressionParams_params_fin [(2 : ℚ), 2, 2, 2] [1, 2, 3, 4] rfl]
    norm_num [sumXX, sumXY, ddiv_some, dmul, dsub]
  have hr := linearRegressionParams_r_squared_of_none _ _ (by simp [fin]) hp
  have e : linearRegressionParams (fin [(2 : ℚ), 2, 2, 2]) (fin [1, 2, 3, 4])
      = { params := (linearRegressionParams (fin [(2 : ℚ), 2, 2, 2])
                      (fin [1, 2, 3, 4])).params
          x := fin [2, 2, 2, 2], y := fin [1, 2, 3, 4]
          r_squared := (linearRegressionParams (fin [(2 : ℚ), 2, 2, 2])
                      (fin [1, 2, 3, 4])).r_squared } := rfl
  rw [e, hp, hr]

/-- C12 (amended): degenerate `x` is not rejected.  `linearRegressionParams`
signals nothing: whenever the `denominator` it computes is zero it divides by
it and returns, with a non-finite slope, a non-finite intercept and a
non-finite `r_squared`.  In exact real arithmetic that is the case for every
`x`, `y` of equal non-zero length `n` with `n*sum(x_i^2) - (sum x_i)^2 = 0`. -/
theorem degenerate_x_returns_non_finite :
    (∀ x y : Vec K, x ≠ [] → denominator x y = some 0 →
      linearRegressionParams x y
        = { params := (none, none), x := x, y := y, r_squared := none })
    ∧ (∀ xs ys : List K, xs.length = ys.length → xs ≠ [] →
        (xs.length : K) * sumXX xs - xs.sum * xs.sum = 0 →
        denominator (fin xs) (fin ys) = some 0
        ∧ linearRegressionParams (fin xs) (fin ys)
          = { params := (none, none), x := fin xs, y := fin ys, r_squared := none }) := by
  refine ⟨fun x y hx h => linearRegressionParams_of_denominator_zero x y hx h, ?_⟩
  intro xs ys h hne hd
  have hz : denominator (fin xs) (fin ys) = some 0 := by
    rw [denominator_fin xs ys h, hd]
  exact ⟨hz, linearRegressionParams_of_denominator_zero _ _ (by simpa [fin] using hne) hz⟩

theorem degenerate_x_returns_non_finite_witness :
    denominator (fin [(3 : ℚ), 3]) (fin [1, 5]) = some 0
    ∧ linearRegressionParams (fin [(3 : ℚ), 3]) (fin [1, 5])
      = { params := (none, none), x := fin [3, 3], y := fin [1, 5], r_squared := none } :=
  (degenerate_x_returns_non_finite (K := ℚ)).2 [(3 : ℚ), 3] [1, 5] rfl (by simp)
    (by norm_num [sumXX])

/-- C14 as stated fails: on `y = [5, 5, 5, 5]` (with `x = [1, 2, 3, 4]` and the
line `0 + 1 * x`) `RSquared` signals nothing; it returns the non-finite
quotient by the zero denominator. -/
theorem zero_variance_counterexample :
    RSquared (some (0 : ℚ), some 1) (fin [1, 2, 3, 4]) (fin [5, 5, 5, 5]) = none := by
  apply RSquared_of_sumSqTotal_eq_zero _ _ _ _ (by simp)
  norm_num [sumSqTotal, mean]

/-- C14 (amended): zero variance in `y` is not rejected.  `RSquared` signals
nothing: whenever the `dms_mean` it computes is zero it divides by it and
returns a non-finite value, whatever the pair and `x`.  In exact real
arithmetic that is the case for every `x`, `y` of equal non-zero length in
which all `y` values are identical. -/
theorem zero_variance_returns_non_finite :
    (∀ (params : Dbl K × Dbl K) (x_data y_data : Vec K),
      dms_mean y_data = some 0 → RSquared params x_data y_data = none)
    ∧ (∀ (a b c : K) (xs ys : List K), xs.length = ys.length → ys ≠ [] →
        (∀ v ∈ ys, v = c) →
        dms_mean (fin ys) = some 0
        ∧ RSquared (some a, some b) (fin xs) (fin ys) = none) := by
  refine ⟨fun params x_data y_data h => RSquared_of_dms_mean_zero params x_data y_data h, ?_⟩
  intro a b c xs ys _ hne hc
  have hz := dms_mean_of_constant c ys hne hc
  exact ⟨hz, RSquared_of_dms_mean_zero _ _ _ hz⟩

theorem zero_variance_returns_non_finite_witness :
    dms_mean (fin [(7 : ℚ), 7]) = some 0
    ∧ RSquared (some (1 : ℚ), some 2) (fin [0, 1]) (fin [7, 7]) = none :=
  (zero_variance_returns_non_finite (K := ℚ)).2 1 2 7 [0, 1] [7, 7] rfl (by simp)
    (by intro v hv; simp at hv; exact hv)

/-- C15 as stated fails: for `x` of length 2 and `y` of length 3 the function
indexes the data and returns a pair of numbers, and for empty `x` and `y` it
returns the non-finite pair of `0/0`; it signals nothing in either case. -/
theorem malformed_shape_counterexample :
    (linearRegressionParams (fin [(0 : ℚ), 1]) (fin [1, 3, 5])).params
        = (some 6, some (-3))
    ∧ linearRegressionParams (fin ([] : List ℚ)) (fin [])
        = { params := (none, none), x := fin [], y := fin [], r_squared := none } := by
  constructor
  · simp only [linearRegressionParams, sumLoop_fin_le [(0 : ℚ), 1] [1, 3, 5] (by simp),
      accumulate_fin]
    norm_num [fin, sumXX, sumXY, ddiv_some, dmul, dsub]
  · simp only [linearRegressionParams, RSquared, deltaMeanSquared, deltaEstimatedSquared,
      sumLoop, accumulate, fin]
    norm_num [ddiv_some, dmul, dsub, dadd]

/-- C15 (amended): `linearRegressionParams` checks no shape and signals
nothing.  For empty `x` and `y` it returns the non-finite pair of `0/0` and a
non-finite `r_squared`.  For `x` not longer than `y` it returns the pair of
the closed form computed with `n = x.size()`, the sum of all of `y`, and the
products `x_i * y_i` of the first `n` elements of `y`. -/
theorem malformed_shape_returns (xs ys : List K) (h : xs.length ≤ ys.length) :
    linearRegressionParams (fin ([] : List K)) (fin [])
        = { params := (none, none), x := fin [], y := fin [], r_squared := none }
    ∧ (linearRegressionParams (fin xs) (fin ys)).params.2
        = ddiv (some ((xs.length : K) * sumXY xs (ys.take xs.length) - xs.sum * ys.sum))
            (some ((xs.length : K) * sumXX xs - xs.sum * xs.sum))
    ∧ (linearRegressionParams (fin xs) (fin ys)).params.1
        = ddiv (dsub (some ys.sum)
              (dmul (linearRegressionParams (fin xs) (fin ys)).params.2 (some xs.sum)))
            (some (xs.length : K)) := by
  have hl : (fin xs).length = xs.length := by simp [fin]
  refine ⟨?_, ?_, ?_⟩
  · simp only [linearRegressionParams, RSquared, deltaMeanSquared, deltaEstimatedSquared,
      sumLoop, accumulate, fin]
    simp [ddiv_some, dmul, dsub, dadd]
  · simp only [linearRegressionParams, sumLoop_fin_le xs ys h, accumulate_fin, hl,
      dmul_some, dsub_some]
  · simp only [linearRegressionParams, sumLoop_fin_le xs ys h, accumulate_fin, hl,
      dmul_some, dsub_some]

theorem malformed_shape_returns_witness :
    (linearRegressionParams (fin [(0 : ℚ), 1]) (fin [1, 3, 5])).params.2
      = ddiv (some ((([(0 : ℚ), 1].length : ℕ) : ℚ)
            * sumXY [(0 : ℚ), 1] ([1, 3, 5].take [(0 : ℚ), 1].length)
              - [(0 : ℚ), 1].sum * [(1 : ℚ), 3, 5].sum))
          (some ((([(0 : ℚ), 1].length : ℕ) : ℚ) * sumXX [(0 : ℚ), 1]
            - [(0 : ℚ), 1].sum * [(0 : ℚ), 1].sum)) :=
  (malformed_shape_returns [(0 : ℚ), 1] [1, 3, 5] (by simp)).2.1

end LinearClaims

section LogClaims

/-- C13 as stated fails: on `x = [-1, 2, 3]`, `y = [1, 2, 3]` the function
`powerRegressionParams` signals nothing and returns a (non-finite) pair, and
so does `exponentialRegressionParams` on `x = [1, 2, 3]`, `y = [-1, 2, 3]`. -/
theorem log_domain_counterexample :
    ((powerRegressionParams realLog realExp (fin [-1, 2, 3]) (fin [1, 2, 3])).params
        = (none, none)
      ∧ (powerRegressionParams realLog realExp (fin [-1, 2, 3]) (fin [1, 2, 3])).r_squared
        = none)
    ∧ ((exponentialRegressionParams realLog realExp (fin [1, 2, 3])
          (fin [-1, 2, 3])).params = (none, none)
      ∧ (exponentialRegressionParams realLog realExp (fin [1, 2, 3])
          (fin [-1, 2, 3])).r_squared = none) := by
  have hm : none ∈ (fin [(-1 : ℝ), 2, 3]).map realLog :=
    none_mem_map_realLog _ ⟨-1, by simp, by norm_num⟩
  have hp := linearRegressionParams_of_sum_x_none _
    ((fin [(1 : ℝ), 2, 3]).map realLog) (accumulate_of_mem_none _ hm)
  have hq := linearRegressionParams_of_sum_y_none (fin [(1 : ℝ), 2, 3]) _
    (accumulate_of_mem_none _ hm)
  have hr := linearRegressionParams_r_squared_of_none _ _
    (map_realLog_ne_nil (by simp)) hp
  have hs := linearRegressionParams_r_squared_of_none _ _ (by simp [fin]) hq
  refine ⟨⟨?_, hr⟩, ?_, hs⟩
  · simp only [powerRegressionParams, hp, realExp]
  · simp only [exponentialRegressionParams, hq, realExp]

/-- C13 (amended): log-domain violations are not rejected.  For non-empty
`x` and `y` in which some `x_i` or `y_i` is `<= 0`,
`powerRegressionParams` returns without signalling anything: the logarithm of
that element is non-finite, and the slope it returns and `r_squared` are
non-finite.  When some `y_i` is `<= 0`, `exponentialRegressionParams` returns
as well, with a non-finite log-space slope and a non-finite `r_squared`. -/
theorem log_domain_returns_non_finite (xs ys : List ℝ) (hne : xs ≠ []) :
    (((∃ u ∈ xs, u ≤ 0) ∨ (∃ v ∈ ys, v ≤ 0)) →
        (powerRegressionParams realLog realExp (fin xs) (fin ys)).params.2 = none
        ∧ (powerRegressionParams realLog realExp (fin xs) (fin ys)).r_squared = none)
    ∧ ((∃ v ∈ ys, v ≤ 0) →
        (linearRegressionParams (fin xs) ((fin ys).map realLog)).params.2 = none
        ∧ (exponentialRegressionParams realLog realExp (fin xs) (fin ys)).r_squared
          = none) := by
  constructor
  · intro hv
    have hp : (linearRegressionParams ((fin xs).map realLog)
        ((fin ys).map realLog)).params = (none, none) := by
      rcases hv with hx | hy
      · exact linearRegressionParams_of_sum_x_none _ _
          (accumulate_of_mem_none _ (none_mem_map_realLog xs hx))
      · exact linearRegressionParams_of_sum_y_none _ _
          (accumulate_of_mem_none _ (none_mem_map_realLog ys hy))
    have hr := linearRegressionParams_r_squared_of_none _ _ (map_realLog_ne_nil hne) hp
    refine ⟨?_, hr⟩
    simp only [powerRegressionParams, hp]
  · intro hy
    have hp : (linearRegressionParams (fin xs) ((fin ys).map realLog)).params
        = (none, none) :=
      linearRegressionParams_of_sum_y_none _ _
        (accumulate_of_mem_none _ (none_mem_map_realLog ys hy))
    have hr := linearRegressionParams_r_squared_of_none _ _
      (by simpa [fin] using hne) hp
    refine ⟨?_, hr⟩
    rw [hp]

theorem log_domain_returns_non_finite_witness :
    (powerRegressionParams realLog realExp (fin [1, 0]) (fin [1, 2])).params.2 = none
    ∧ (powerRegressionParams realLog realExp (fin [1, 0]) (fin [1, 2])).r_squared = none :=
  (log_domain_returns_non_finite [1, 0] [1, 2] (by simp)).1
    (Or.inl ⟨0, by simp, le_refl 0⟩)

/-- C18: the exponential fit.  For every `x` and strictly positive `y` of equal
non-zero length, `exponentialRegressionParams` returns `(exp(c), exp(m))` where
`(c, m)` is the pair returned by `linearRegressionParams` on `(x, ln y)`: both
the intercept and the slope of the log-space line are exponentiated, `x` goes
to the solver as it is, and with a non-zero denominator `c` and `m` are the
numbers of the closed form on `(x, ln y)`. -/
theorem exponentialRegressionParams_algorithm (xs ys : List ℝ)
    (h : xs.length = ys.length) (hne : xs ≠ []) (hy : ∀ v ∈ ys, 0 < v) :
    (exponentialRegressionParams realLog realExp (fin xs) (fin ys)).params
        = (realExp (linearRegressionParams (fin xs) (fin (ys.map Real.log))).params.1,
           realExp (linearRegressionParams (fin xs) (fin (ys.map Real.log))).params.2)
    ∧ (exponentialRegressionParams realLog realExp (fin xs) (fin ys)).x = fin xs
    ∧ ((xs.length : ℝ) * sumXX xs - xs.sum * xs.sum ≠ 0 →
        (exponentialRegressionParams realLog realExp (fin xs) (fin ys)).params
          = (some (Real.exp (specIntercept xs (ys.map Real.log))),
             some (Real.exp (specSlope xs (ys.map Real.log))))) := by
  have ey := map_realLog_fin ys hy
  have e : (exponentialRegressionParams realLog realExp (fin xs) (fin ys)).params
      = (realExp (linearRegressionParams (fin xs) (fin (ys.map Real.log))).params.1,
         realExp (linearRegressionParams (fin xs) (fin (ys.map Real.log))).params.2) := by
    simp only [exponentialRegressionParams, ey]
  refine ⟨e, rfl, fun hd => ?_⟩
  rw [e, linearRegressionParams_params_of_ne xs (ys.map Real.log) (by simpa using h) hne hd]
  rfl

theorem exponentialRegressionParams_algorithm_witness :
    (exponentialRegressionParams realLog realExp (fin [1, 2]) (fin [1, 2])).params
      = (realExp (linearRegressionParams (fin [1, 2])
            (fin ([1, 2].map Real.log))).params.1,
         realExp (linearRegressionParams (fin [1, 2])
            (fin ([1, 2].map Real.log))).params.2) :=
  (exponentialRegressionParams_algorithm [1, 2] [1, 2] rfl (by simp) pos_one_two).1

/-- C19: the `r_squared` reported by the power fit is that of the log-space
line on the log-transformed data.  For strictly positive `x`, `y` of equal
non-zero length, with `(c, m)` the pair returned by `linearRegressionParams`
on `(ln x, ln y)`, `powerRegressionParams` returns `(exp(c), m)` and sets
`r_squared = RSquared((c, m), ln x, ln y)`; with a non-zero denominator `c`
and `m` are the numbers of the closed form on `(ln x, ln y)`, and `r_squared`
is computed from them, not from `exp(c)`. -/
theorem powerRegressionParams_r_squared_log_space (xs ys : List ℝ)
    (h : xs.length = ys.length) (hne : xs ≠ [])
    (hx : ∀ u ∈ xs, 0 < u) (hy : ∀ v ∈ ys, 0 < v) :
    (powerRegressionParams realLog realExp (fin xs) (fin ys)).params
        = (realExp (linearRegressionParams (fin (xs.map Real.log))
              (fin (ys.map Real.log))).params.1,
           (linearRegressionParams (fin (xs.map Real.log))
              (fin (ys.map Real.log))).params.2)
    ∧ (powerRegressionParams realLog realExp (fin xs) (fin ys)).r_squared
        = RSquared
            (linearRegressionParams (fin (xs.map Real.log)) (fin (ys.map Real.log))).params
            (fin (xs.map Real.log)) (fin (ys.map Real.log))
    ∧ (specDenominator (xs.map Real.log) ≠ 0 →
        (powerRegressionParams realLog realExp (fin xs) (fin ys)).params
          = (some (Real.exp (specIntercept (xs.map Real.log) (ys.map Real.log))),
             some (specSlope (xs.map Real.log) (ys.map Real.log)))
        ∧ (powerRegressionParams realLog realExp (fin xs) (fin ys)).r_squared
          = RSquared
              (some (specIntercept (xs.map Real.log) (ys.map Real.log)),
               some (specSlope (xs.map Real.log) (ys.map Real.log)))
              (fin (xs.map Real.log)) (fin (ys.map Real.log))) := by
  have ex := map_realLog_fin xs hx
  have ey := map_realLog_fin ys hy
  have e1 : (powerRegressionParams realLog realExp (fin xs) (fin ys)).params
      = (realExp (linearRegressionParams (fin (xs.map Real.log))
            (fin (ys.map Real.log))).params.1,
         (linearRegressionParams (fin (xs.map Real.log))
            (fin (ys.map Real.log))).params.2) := by
    simp only [powerRegressionParams, ex, ey]
  have e2 : (powerRegressionParams realLog realExp (fin xs) (fin ys)).r_squared
      = RSquared
          (linearRegressionParams (fin (xs.map Real.log)) (fin (ys.map Real.log))).params
          (fin (xs.map Real.log)) (fin (ys.map Real.log)) := by
    simp only [powerRegressionParams, ex, ey, linearRegressionParams_r_squared]
  refine ⟨e1, e2, fun hd => ?_⟩
  have hp := linearRegressionParams_params_of_ne (xs.map Real.log) (ys.map Real.log)
    (by simpa using h) (by simpa using hne) hd
  rw [e1, e2, hp]
  exact ⟨rfl, rfl⟩

theorem powerRegressionParams_r_squared_log_space_witness :
    (powerRegressionParams realLog realExp (fin [1, 2]) (fin [1, 2])).r_squared
      = RSquared
          (linearRegressionParams (fin ([1, 2].map Real.log))
            (fin ([1, 2].map Real.log))).params
          (fin ([1, 2].map Real.log)) (fin ([1, 2].map Real.log)) :=
  (powerRegressionParams_r_squared_log_space [1, 2] [1, 2] rfl (by simp) pos_one_two
    pos_one_two).2.1

end LogClaims

section WrapperLemmas

variable {K : Type}

/-- The loop stops, with nothing pushed, on a stream that does not start with
two numbers. -/
theorem readLoop_stop (rest : List (Token K)) (data : Vec K × Vec K)
    (hrest : ∀ a b t, rest ≠ Token.number a :: Token.number b :: t) :
    readLoop rest data = data := by
  match rest with
  | [] => rfl
  | [Token.number _] => rfl
  | Token.malformed :: _ => rfl
  | Token.number _ :: Token.malformed :: _ => rfl
  | Token.number a :: Token.number b :: t => exact absurd rfl (hrest a b t)

theorem readLoop_pairs (pairs : List (K × K)) (rest : List (Token K))
    (data : Vec K × Vec K)
    (hrest : ∀ a b t, rest ≠ Token.number a :: Token.number b :: t) :
    readLoop (pairTokens pairs ++ rest) data
      = (data.1 ++ fin (pairs.map Prod.fst), data.2 ++ fin (pairs.map Prod.snd)) := by
  induction pairs generalizing data with
  | nil => simp [pairTokens, fin, readLoop_stop rest data hrest]
  | cons p ps ih =>
    show readLoop (pairTokens ps ++ rest) (data.1 ++ [some p.1], data.2 ++ [some p.2]) = _
    rw [ih]
    simp [fin]

end WrapperLemmas

section ReaderClaims

variable {K : Type}

/-- C17 as stated fails: on the three records `1 2`, `abc 3`, `4 5` the reader
stores only the first; the well-formed record after the malformed one is not
appended. -/
theorem parseData_counterexample :
    parseData
        (fun _ => some (List.flatten
          [[Token.number (1 : ℚ), Token.number 2], [Token.malformed, Token.number 3],
           [Token.number 4, Token.number 5]]))
        "data.txt" [] []
      = Except.ok (fin [1], fin [2])
    ∧ specParse
        [[Token.number (1 : ℚ), Token.number 2], [Token.malformed, Token.number 3],
         [Token.number 4, Token.number 5]]
      = (fin [1, 4], fin [2, 5]) := by
  constructor
  · rfl
  · rfl

/-- C17 (amended): `parseData` reads pairs of numbers until the first
extraction that fails, at a malformed or truncated record or at the end of
the input, and stops there: the pairs read before it are appended in input
order to `x_data` and `y_data`, nothing after it is, and no error is raised. -/
theorem parseData_reads_until_failure (fs : String → Option (List (Token K)))
    (filepath : String) (pairs : List (K × K)) (rest : List (Token K))
    (x_data y_data : Vec K)
    (hfs : fs filepath = some (pairTokens pairs ++ rest))
    (hrest : ∀ a b t, rest ≠ Token.number a :: Token.number b :: t) :
    parseData fs filepath x_data y_data
      = Except.ok (x_data ++ fin (pairs.map Prod.fst),
          y_data ++ fin (pairs.map Prod.snd)) := by
  simp only [parseData, hfs, readLoop_pairs pairs rest (x_data, y_data) hrest]

theorem parseData_reads_until_failure_witness :
    parseData
        (fun _ => some (pairTokens [((1 : ℚ), (2 : ℚ))]
          ++ [Token.malformed, Token.number 3, Token.number 4, Token.number 5]))
        "data.txt" [] []
      = Except.ok ([] ++ fin ([((1 : ℚ), (2 : ℚ))].map Prod.fst),
          [] ++ fin ([((1 : ℚ), (2 : ℚ))].map Prod.snd)) :=
  parseData_reads_until_failure _ "data.txt" [(1, 2)]
    [Token.malformed, Token.number 3, Token.number 4, Token.number 5] [] [] rfl
    (by intro a b t e; cases e)

end ReaderClaims

section WrapperClaims

variable {K : Type} [LinearOrderedField K]

end WrapperClaims

end Regression
